import Mathlib

/-!
Verification development for the `text_style_transfer` gazette-preprocessing
repository.  Python strings are embedded as Lean `String`s manipulated through
their underlying `List Char`; regular-expression substitutions are embedded as
explicit recursive passes over the character list; the filesystem is embedded
as an association list from file names to contents.

Part 1 below embeds `src/gazettes/data.py`.  The repository's
`gazettes/preprocessing.py` module is not part of the source tree (only its
test file `src/tests/preprocessing_tests.py` is), so the functions it exports
are modelled from the specification; each such definition carries a
`Modelled from the spec:` doc comment.
-/

/-! ### Generic character-list machinery -/

/-- The whitespace class of the regex `(\n|\r|\t| )` used in
`remove_repeating_whitespaces_and_new_lines`. -/
def isPyWS (c : Char) : Bool := c = '\n' || c = '\r' || c = '\t' || c = ' '

/-- The character class of the regex `(-|_|\.)` used in
`remove_repeating_dashes`. -/
def isDashChar (c : Char) : Bool := c = '-' || c = '_' || c = '.'

/-- Replace every maximal run of characters satisfying `p` by the single
character `rep`; `inRun` records whether the previous input character belonged
to such a run.  This is `re.sub(p+, rep, text)` for a character class `p`. -/
def collapseRuns (p : Char → Bool) (rep : Char) : List Char → Bool → List Char
  | [], _ => []
  | c :: cs, inRun =>
    if p c then
      if inRun then collapseRuns p rep cs true
      else rep :: collapseRuns p rep cs true
    else c :: collapseRuns p rep cs false

/-- `chainOK p o l` scans `l` and checks that no two adjacent characters both
satisfy `p`; `o` is the character immediately preceding `l`, if any. -/
def chainOK (p : Char → Bool) : Option Char → List Char → Bool
  | _, [] => true
  | none, c :: cs => chainOK p (some c) cs
  | some a, c :: cs => !(p a && p c) && chainOK p (some c) cs

/-! ### Embedding of `src/gazettes/data.py` -/

/-- `remove_repeating_whitespaces_and_new_lines` from `src/gazettes/data.py`:
`re.sub(r"(\n|\r|\t| ){1,}", " ", text)`. -/
def remove_repeating_whitespaces_and_new_lines (text : String) : String :=
  String.mk (collapseRuns isPyWS ' ' text.data false)

/-- `remove_repeating_dashes` from `src/gazettes/data.py`:
`re.sub(r"(-|_|\.){1,}", "", text)`.  Replacing every run (of length ≥ 1) by
the empty string is precisely deleting every `-`, `_` and `.` character. -/
def remove_repeating_dashes (text : String) : String :=
  String.mk (text.data.filter (fun c => !(isDashChar c)))

/-- ASCII lower-casing of a single character, the action of Python's
`str.lower()` on the ASCII range. -/
def lowerChar (c : Char) : Char :=
  if 65 ≤ c.toNat ∧ c.toNat ≤ 90 then Char.ofNat (c.toNat + 32) else c

/-- `clean_sentence` from `src/gazettes/data.py`: whitespace collapsing, then
dash removal, then lower-casing. -/
def clean_sentence (sentence : String) : String :=
  String.mk
    ((remove_repeating_dashes
        (remove_repeating_whitespaces_and_new_lines sentence)).data.map lowerChar)

/-- The filesystem seen by the clean-text writer: file name to stored
JSON sentence list. -/
abbrev GazetteFS := List (String × List String)

/-- The sentence-collection loop of `clean_gazette_text`: the extracted
strings of length < 3 are skipped, the remaining ones are cleaned. -/
def usableSentences (content : List String) : List String :=
  (content.filter (fun s => 3 ≤ s.length)).map clean_sentence

/-- `clean_gazette_text` from `src/gazettes/data.py`.  `content` stands for
the sequence of stripped strings the HTML parser extracts from
`content_file`.  When no usable sentence remains the function raises
(`(fs, some message)`) before the destination file is ever opened, so the
filesystem is returned unchanged; on success the destination is written. -/
def clean_gazette_text (content_file : String) (content : List String)
    (fs : GazetteFS) (dest : String) : GazetteFS × Option String :=
  let text := usableSentences content
  if text = [] then (fs, some ("Could not get text from " ++ content_file))
  else ((dest, text) :: fs, none)

/-- The record returned by `get_dataset_stats`. -/
structure DatasetStats where
  max_sequence_length : Nat
  min_sequence_length : Nat
  average_sequence_length : Nat
deriving Repr, DecidableEq

/-- Python's `sys.maxsize` on a 64-bit platform, the initial value of
`min_sequence_length`. -/
def sysMaxsize : Nat := 9223372036854775807

/-- Python's `round` on an exact quotient `num / den`: round half to even. -/
def roundHalfToEven (num den : Nat) : Nat :=
  let q := num / den
  let r := num % den
  if 2 * r < den then q
  else if den < 2 * r then q + 1
  else if q % 2 = 0 then q else q + 1

/-- One iteration of the accumulation loop of `get_dataset_stats`; the state
is `(max_sequence_length, min_sequence_length, total_number_tokens,
total_sample_count)`. -/
def statsFold (acc : Nat × Nat × Nat × Nat) (sample : List Nat) :
    Nat × Nat × Nat × Nat :=
  (max acc.1 sample.length, min acc.2.1 sample.length,
    acc.2.2.1 + sample.length, acc.2.2.2 + 1)

/-- `get_dataset_stats` from `src/gazettes/data.py`.  On an empty dataset the
Python code divides by `total_sample_count = 0` (`ZeroDivisionError`),
embedded here as `none`. -/
def get_dataset_stats (dataset : List (List Nat)) : Option DatasetStats :=
  let st := dataset.foldl statsFold (0, sysMaxsize, 0, 0)
  if st.2.2.2 = 0 then none
  else some ⟨st.1, st.2.1, roundHalfToEven st.2.2.1 st.2.2.2⟩

/-- ASCII upper-case test. -/
def isUpperAscii (c : Char) : Bool := 65 ≤ c.toNat && c.toNat ≤ 90

/-- A character admissible in `clean_sentence` output: not upper case, not a
dash-class character, not a tab, carriage return or newline. -/
def goodCleanChar (c : Char) : Bool :=
  !(isUpperAscii c) && (c != '-') && (c != '_') && (c != '.') &&
    (c != '\t') && (c != '\r') && (c != '\n')

/-! ### Spec-modelled embedding of the missing `gazettes/preprocessing.py`

The module `gazettes/preprocessing.py` is imported by
`src/tests/preprocessing_tests.py` but its source is not part of the tree, so
the definitions below are modelled from the specification text (§2, §4.1–§4.5,
§8 of `spec.md`). -/

/-- Single space, the run class of `remove_duplicate_whitespaces`. -/
def isSpaceChar (c : Char) : Bool := c = ' '

/-- Newline, the run class of `remove_consecutive_empty_lines`. -/
def isNLChar (c : Char) : Bool := c = '\n'

/-- ASCII digit test. -/
def isDigitChar (c : Char) : Bool := 48 ≤ c.toNat && c.toNat ≤ 57

/-- ASCII alphanumeric test. -/
def isAlnumChar (c : Char) : Bool :=
  isDigitChar c || (65 ≤ c.toNat && c.toNat ≤ 90) || (97 ≤ c.toNat && c.toNat ≤ 122)

/-- Modelled from the spec (§4.1): `remove_consecutive_empty_lines` — "any
run of one-or-more blank lines collapses to exactly one newline character
(not zero)". -/
def remove_consecutive_empty_lines (text : String) : String :=
  String.mk (collapseRuns isNLChar '\n' text.data false)

/-- Modelled from the spec (§4.1): `remove_duplicate_whitespaces` — "any run
of space characters collapses to one space; newlines preserved". -/
def remove_duplicate_whitespaces (text : String) : String :=
  String.mk (collapseRuns isSpaceChar ' ' text.data false)

/-- Modelled from the spec (§4.1): the quote-placeholder map of
`remove_special_quotes` — curly quotation marks become a standard double
quote, "consistently for opening and closing occurrences". -/
def quoteMap (c : Char) : Char := if c = '“' ∨ c = '”' then '"' else c

/-- Modelled from the spec (§4.1): `remove_special_quotes`. -/
def remove_special_quotes (text : String) : String :=
  String.mk (text.data.map quoteMap)

/-- The filler class of `remove_line_with_punctuation_only`: non-alphanumeric,
non-whitespace characters other than the punctuation the spec protects
(question marks, parentheses, quotes). -/
def isFillerChar (c : Char) : Bool :=
  !(isAlnumChar c) && !(isPyWS c) &&
    !(c == '?') && !(c == '(') && !(c == ')') && !(c == '"') &&
    !(c == '“') && !(c == '”')

/-- The run alphabet of `remove_line_with_punctuation_only`: filler characters
and spaces (runs do not cross newlines). -/
def isPORun (c : Char) : Bool := isFillerChar c || c = ' '

/-- Emit a buffered filler/space run: runs holding at least two filler
characters collapse to a single space, all other runs are kept verbatim. -/
def poFlush (pend : List Char) (fc : Nat) : List Char :=
  if 2 ≤ fc then [' '] else pend.reverse

/-- Scanner of `remove_line_with_punctuation_only`: `pend` is the current
(reversed) filler/space run, `fc` the number of filler characters in it. -/
def poAux : List Char → List Char → Nat → List Char
  | [], pend, fc => poFlush pend fc
  | c :: cs, pend, fc =>
    if isPORun c then poAux cs (c :: pend) (fc + (if isFillerChar c then 1 else 0))
    else poFlush pend fc ++ c :: poAux cs [] 0

/-- Modelled from the spec (§4.1, §8): `remove_line_with_punctuation_only` —
"within a line, remove any run of non-alphanumeric filler characters (dots,
spaces, symbols) of length ≥ 2 that serves as a visual separator …
collapsing to a single space between retained tokens", preserving short
punctuation. -/
def remove_line_with_punctuation_only (text : String) : String :=
  String.mk (poAux text.data [] 0)

/-- Adjacent pairing test: the list has even length and every consecutive
pair consists of two equal characters. -/
def pairsEq : List Char → Bool
  | [] => true
  | [_] => false
  | a :: b :: t => (a == b) && pairsEq t

/-- A token every character of which appears doubled (the OCR letter-doubling
artifact, e.g. `CCRRIIAADDOO`). -/
def fullyDoubled (t : List Char) : Bool := !t.isEmpty && pairsEq t

/-- Collapse every maximal run of one repeated character to one copy
(`CCRRIIAADDOO` to `CRIADO`); on fully doubled tokens this is the collapse
of each doubled letter, and it is its own fixed point. -/
def squashEqRuns : List Char → List Char
  | [] => []
  | [c] => [c]
  | a :: b :: t => if a == b then squashEqRuns (b :: t) else a :: squashEqRuns (b :: t)

/-- Rewrite one buffered (reversed) token of
`remove_word_with_duplicate_letters`. -/
def dwFlush (buf : List Char) : List Char :=
  let t := buf.reverse
  if fullyDoubled t then squashEqRuns t else t

/-- Scanner of `remove_word_with_duplicate_letters`: `buf` is the current
(reversed) whitespace-free token. -/
def dwAux : List Char → List Char → List Char
  | [], buf => dwFlush buf
  | c :: cs, buf =>
    if isPyWS c then dwFlush buf ++ c :: dwAux cs []
    else dwAux cs (c :: buf)

/-- Modelled from the spec (§4.1): `remove_word_with_duplicate_letters` —
"for tokens where every letter is doubled … collapse each doubled letter
pair to one, yielding `CRIADO`; tokens not fully doubled are left unchanged;
whitespace runs between tokens are preserved as-is". -/
def remove_word_with_duplicate_letters (text : String) : String :=
  String.mk (dwAux text.data [])

/-- The numeral part of a structural marker, after the keyword: optional
separating spaces, a numeral of one or more digits, an optional period, an
optional ordinal marker `º`, then either the end of the line or mandatory
whitespace (which is consumed). -/
def stripBody (r : List Char) : Option (List Char) :=
  let r2 := r.dropWhile isSpaceChar
  let ds := r2.takeWhile isDigitChar
  if ds.isEmpty then none
  else
    let r3 := r2.dropWhile isDigitChar
    let r4 := match r3 with | '.' :: t => t | _ => r3
    let r5 := match r4 with | 'º' :: t => t | _ => r4
    match r5 with
    | [] => some []
    | c :: _ => if isPyWS c then some (r5.dropWhile isPyWS) else none

/-- One attempt to strip a leading structural marker from a (newline-free)
line: the keyword `Art.` or `§`, then `stripBody`. -/
def stripMarkerOnce (l : List Char) : Option (List Char) :=
  match l with
  | 'A' :: 'r' :: 't' :: '.' :: r => stripBody r
  | '§' :: r => stripBody r
  | _ => none

/-- Strip leading markers repeatedly; the fuel bounds the number of
iterations (each successful strip shortens the line). -/
def stripLineFuel : Nat → List Char → List Char
  | 0, l => l
  | fuel + 1, l =>
    match stripMarkerOnce l with
    | some r => stripLineFuel fuel r
    | none => l

/-- Strip all leading markers of one line. -/
def stripLine (l : List Char) : List Char := stripLineFuel l.length l

/-- Split a character list at a separator character; `buf` is the current
(reversed) segment. -/
def splitOnChar (sep : Char) : List Char → List Char → List (List Char)
  | [], buf => [buf.reverse]
  | c :: cs, buf =>
    if c = sep then buf.reverse :: splitOnChar sep cs []
    else splitOnChar sep cs (c :: buf)

/-- Rejoin lines with newlines. -/
def joinLines (L : List (List Char)) : List Char := List.intercalate ['\n'] L

/-- Strip each line and drop the lines the stripping emptied ("lines that
become empty after stripping collapse away"); originally empty lines are
kept. -/
def processLines (L : List (List Char)) : List (List Char) :=
  L.filterMap (fun l =>
    let l' := stripLine l
    if l'.isEmpty && !l.isEmpty then none else some l')

/-- Modelled from the spec (§4.2): `remove_special_line_prefix` — strips a
leading legal-citation marker (`Art.`/`§` plus numeral, optional ordinal
marker, optional trailing period, whitespace) from each line, "removing the
marker and the separating space but preserving the remainder of the line
verbatim"; mid-sentence citations are untouched. -/
def remove_special_line_prefix (text : String) : String :=
  String.mk (joinLines (processLines (splitOnChar '\n' text.data [])))

/-- Modelled from the spec (§2, §4.4): the pure transform applied by
`preprocess_gazette_txt_file`: the Character/Line Normalizer (newline
collapapsing, space collapsing, quote fixing, filler-run removal, doubled-letter
collapsing), then the Structural Line Filter. -/
def preprocess_gazette_text (text : String) : String :=
  remove_special_line_prefix
    (remove_word_with_duplicate_letters
      (remove_line_with_punctuation_only
        (remove_special_quotes
          (remove_duplicate_whitespaces
            (remove_consecutive_empty_lines text)))))

/-- A text filesystem: file name to text contents. -/
abbrev TextFS := List (String × String)

/-- Modelled from the spec (§4.4): `preprocess_gazette_txt_file` — reads the
source, applies the transform, "fails when source does not exist or yields
empty content (signal: no-content error, not a silent empty-file write)",
and writes the destination only on success. -/
def preprocess_gazette_txt_file (fs : TextFS) (source destination : String) :
    TextFS × Option String :=
  match fs.lookup source with
  | none => (fs, some "MissingFileError")
  | some text =>
    let out := preprocess_gazette_text text
    if out = "" then (fs, some "EmptyContentError")
    else ((destination, out) :: fs, none)

/-- Terminal sentence punctuation. -/
def isTermChar (c : Char) : Bool := c = '.' || c = '?' || c = '!'

/-- The abbreviation set of the segmenter (spec §4.3 and §9: `inc.`, `art.`,
inferred from the examples), compared case-insensitively against the
(reversed) token preceding the terminal punctuation. -/
def isAbbrevTok (tok : List Char) : Bool :=
  let w := tok.reverse.map lowerChar
  w == ['a', 'r', 't'] || w == ['i', 'n', 'c']

/-- An ordinal/citation token: digits optionally mixed with periods and the
ordinal marker (spec §4.3: "`art. 3.º`-style citations stay attached to
their sentence"). -/
def isCitationTok (tok : List Char) : Bool :=
  !tok.isEmpty &&
    tok.all (fun c => isDigitChar c || c == '.' || c == 'º') &&
    tok.any isDigitChar

/-- Tokens whose trailing terminal punctuation must not end a sentence. -/
def isExceptionTok (tok : List Char) : Bool := isAbbrevTok tok || isCitationTok tok

/-- Modelled from the spec (§4.3): the sentence-segmentation scanner.
`acc` is the current (reversed) sentence, `tok` the current (reversed)
token, `q` whether scanning is inside a double-quoted sub-clause, and
`pend = some buf` means the last non-buffered character was terminal
punctuation outside quotes with `buf` the (reversed) whitespace seen since.
A sentence ends at terminal punctuation followed by whitespace and an
upper-case sentence start, except after an abbreviation (whose following
whitespace is removed: `inc. XI` becomes `inc.XI`) or an ordinal citation,
and never inside quotes. -/
def segAux : List Char → List Char → List Char → Bool → Option (List Char) →
    List (List Char)
  | [], acc, _, _, pend =>
    [((match pend with | some buf => buf | none => []) ++ acc).reverse]
  | c :: cs, acc, tok, q, pend =>
    match pend with
    | some buf =>
      if isPyWS c then segAux cs acc tok q (some (c :: buf))
      else if !buf.isEmpty && isUpperAscii c && !q then
        if isAbbrevTok tok then segAux cs (c :: acc) [c] q none
        else if isCitationTok tok then segAux cs (c :: (buf ++ acc)) [c] q none
        else acc.reverse :: segAux cs [c] [c] q none
      else
        segAux cs (c :: (buf ++ acc))
          (if isTermChar c && !(if c = '"' then !q else q) then
            (if buf.isEmpty then tok else [])
          else c :: (if buf.isEmpty then tok else []))
          (if c = '"' then !q else q)
          (if isTermChar c && !(if c = '"' then !q else q) then some [] else none)
    | none =>
      if isPyWS c then segAux cs (c :: acc) [] q none
      else
        segAux cs (c :: acc)
          (if isTermChar c && !(if c = '"' then !q else q) then tok else c :: tok)
          (if c = '"' then !q else q)
          (if isTermChar c && !(if c = '"' then !q else q) then some [] else none)

/-- Strip leading and trailing whitespace of one sentence. -/
def trimChars (l : List Char) : List Char :=
  ((l.dropWhile isPyWS).reverse.dropWhile isPyWS).reverse

/-- The sentence list of a character list: scan, trim each sentence, drop
whitespace-only sentences. -/
def segmentChars (l : List Char) : List (List Char) :=
  ((segAux l [] [] false none).map trimChars).filter (fun t => !t.isEmpty)

/-- Modelled from the spec (§4.3): `sentence_segmentation` — a pure, finite,
order-preserving sentence sequence; returned sentences carry no surrounding
whitespace and whitespace-only sentences are dropped. -/
def sentence_segmentation (text : String) : List String :=
  (segmentChars text.data).map String.mk

/-- Join sentences with single spaces. -/
def joinSentences : List (List Char) → List Char
  | [] => []
  | [x] => x
  | x :: y :: t => x ++ ' ' :: joinSentences (y :: t)

/-- ISO `YYYY-MM-DD` parsing, modelled from the spec (§3, §4.5):
fixed-width numeric fields with calendar-range checks, `none` on any
non-conforming segment (as `datetime.strptime` raises). -/
def parseISODate (s : String) : Option (Nat × Nat × Nat) :=
  match s.data with
  | [y1, y2, y3, y4, h1, m1, m2, h2, d1, d2] =>
    if (h1 == '-') && (h2 == '-') &&
        isDigitChar y1 && isDigitChar y2 && isDigitChar y3 && isDigitChar y4 &&
        isDigitChar m1 && isDigitChar m2 && isDigitChar d1 && isDigitChar d2 then
      let year := ((y1.toNat - 48) * 10 + (y2.toNat - 48)) * 100 +
        ((y3.toNat - 48) * 10 + (y4.toNat - 48))
      let month := (m1.toNat - 48) * 10 + (m2.toNat - 48)
      let day := (d1.toNat - 48) * 10 + (d2.toNat - 48)
      if 1 ≤ month && month ≤ 12 && 1 ≤ day && day ≤ 31 then
        some (year, month, day)
      else none
    else none
  | _ => none

/-- Lexicographic date comparison, the `datetime` order. -/
def dateLE (a b : Nat × Nat × Nat) : Bool :=
  a.1 < b.1 || (a.1 == b.1 && (a.2.1 < b.2.1 ||
    (a.2.1 == b.2.1 && a.2.2 ≤ b.2.2)))

/-- Modelled from the spec (§4.5): `_is_directory_date` — parse the last
path segment as the directory date and compare it with the cutoff,
inclusively ("true when directory date ≥ cutoff"); non-date segments are
skipped (false). -/
def _is_directory_date (path cutoff : String) : Bool :=
  match parseISODate (String.mk ((splitOnChar '/' path.data []).getLastD [])),
      parseISODate cutoff with
  | some d, some c => dateLE c d
  | _, _ => false

/-- Modelled from the spec (§4.5): `find_gazette_files` — the recursive
`os.walk` traversal is abstracted as the list of
`(directory relative to root, filename)` pairs the walk visits; each file's
governing date directory is the one immediately containing it, and with
`since` present only files whose directory passes `_is_directory_date` are
yielded. -/
def find_gazette_files (root : String) (walk : List (String × String))
    (since : Option String) : List String :=
  walk.filterMap (fun e =>
    let dirPath := root ++ "/" ++ e.1
    match since with
    | none => some (dirPath ++ "/" ++ e.2)
    | some d =>
      if _is_directory_date dirPath d then some (dirPath ++ "/" ++ e.2)
      else none)


/-- Scanner for the filler-run property: every maximal run of
filler-or-space characters contains at most one filler character.  The
state records whether a filler character was already seen in the current
run. -/
def poOK : Bool → List Char → Bool
  | _, [] => true
  | s, c :: cs =>
    if isFillerChar c then (if s then false else poOK true cs)
    else if c = ' ' then poOK s cs
    else poOK false cs

/-- The same scanner split into a prefix verdict and a final state. -/
def poScan : Bool → List Char → Bool × Bool
  | s, [] => (true, s)
  | s, c :: cs =>
    if isFillerChar c then (if s then (false, true) else poScan true cs)
    else if c = ' ' then poScan s cs
    else poScan false cs

/-- Number of filler characters of a list. -/
def countF (l : List Char) : Nat := (l.filter isFillerChar).length

/-- Scanner for the doubled-token property: no whitespace-delimited token
is fully doubled.  The state is the current (reversed) token. -/
def dwOK : List Char → List Char → Bool
  | buf, [] => !(fullyDoubled buf.reverse)
  | buf, c :: cs =>
    if isPyWS c then (!(fullyDoubled buf.reverse)) && dwOK [] cs
    else dwOK (c :: buf) cs

/-- The doubled-token scanner split into a prefix verdict (without the
final-token check) and the final token buffer. -/
def dwScan : List Char → List Char → Bool × List Char
  | buf, [] => (true, buf)
  | buf, c :: cs =>
    if isPyWS c then
      ((!(fullyDoubled buf.reverse)) && (dwScan [] cs).1, (dwScan [] cs).2)
    else dwScan (c :: buf) cs

/-- The character preceding the continuation after scanning `x` with
previous character `o`. -/
def lastState (o : Option Char) (x : List Char) : Option Char :=
  match x.getLast? with
  | some c => some c
  | none => o

/-- No curly quote placeholder present. -/
def noCurly (l : List Char) : Bool :=
  l.all (fun c => !(c == '“') && !(c == '”'))

/-- Every interior line (a line with lines both before and after it) is
nonempty; equivalent to the absence of adjacent newlines in the joined
text. -/
def linesOK : List (List Char) → Bool
  | [] => true
  | [_] => true
  | _ :: b :: t => (t.isEmpty || !b.isEmpty) && linesOK (b :: t)

/-- All lines free of newline characters. -/
def nlFreeLines (K : List (List Char)) : Bool :=
  K.all (fun line => line.all (fun c => !(c == '\n')))

/-- Every line except the last is nonempty. -/
def tailNE : List (List Char) → Bool
  | [] => true
  | [_] => true
  | a :: b :: t => !a.isEmpty && tailNE (b :: t)


/-! ### Lemmas about the `data.py` embedding -/

theorem char_eq_of_toNat_eq {c d : Char} (h : c.toNat = d.toNat) : c = d := by
  rw [← Char.ofNat_toNat c, h, Char.ofNat_toNat]

theorem char_ne_iff_toNat {c d : Char} : c ≠ d ↔ c.toNat ≠ d.toNat :=
  ⟨fun h h2 => h (char_eq_of_toNat_eq h2), fun h h2 => h (h2 ▸ rfl)⟩

theorem lowerChar_toNat (c : Char) :
    (lowerChar c).toNat =
      if 65 ≤ c.toNat ∧ c.toNat ≤ 90 then c.toNat + 32 else c.toNat := by
  by_cases h : 65 ≤ c.toNat ∧ c.toNat ≤ 90
  · rw [lowerChar, if_pos h, if_pos h]
    obtain ⟨h1, h2⟩ := h
    generalize c.toNat = n at h1 h2 ⊢
    interval_cases n <;> decide
  · rw [lowerChar, if_neg h, if_neg h]

theorem mem_collapseRuns {p : Char → Bool} {rep : Char} :
    ∀ {l : List Char} {b : Bool} {c : Char},
      c ∈ collapseRuns p rep l b → c = rep ∨ (c ∈ l ∧ p c = false) := by
  intro l
  induction l with
  | nil => intro b c h; simp [collapseRuns] at h
  | cons a t ih =>
    intro b c h
    by_cases hp : p a
    · by_cases hb : b
      · simp only [collapseRuns, hp, if_pos, hb, if_true] at h
        rcases ih h with h1 | ⟨h2, h3⟩
        · exact Or.inl h1
        · exact Or.inr ⟨List.mem_cons_of_mem _ h2, h3⟩
      · simp only [collapseRuns, hp, if_pos, hb] at h
        rcases List.mem_cons.mp h with h1 | h1
        · exact Or.inl h1
        · rcases ih h1 with h2 | ⟨h3, h4⟩
          · exact Or.inl h2
          · exact Or.inr ⟨List.mem_cons_of_mem _ h3, h4⟩
    · simp only [collapseRuns, hp, if_neg, not_false_iff, Bool.false_eq_true] at h
      rcases List.mem_cons.mp h with h1 | h1
      · subst h1; exact Or.inr ⟨List.mem_cons_self _ _, by simpa using hp⟩
      · rcases ih h1 with h2 | ⟨h3, h4⟩
        · exact Or.inl h2
        · exact Or.inr ⟨List.mem_cons_of_mem _ h3, h4⟩

theorem chainOK_collapseRuns (p : Char → Bool) (rep : Char) :
    ∀ (l : List Char) (b : Bool) (o : Option Char),
      (b = false → ∀ a, o = some a → p a = false) →
      chainOK p o (collapseRuns p rep l b) = true := by
  intro l
  induction l with
  | nil => intro b o _; cases o <;> rfl
  | cons a t ih =>
    intro b o ho
    by_cases hp : p a
    · by_cases hb : b
      · simp only [collapseRuns, hp, if_pos, hb, if_true]
        exact ih true o (by intro h; cases h)
      · simp only [collapseRuns, hp, if_pos, hb]
        cases o with
        | none => exact ih true (some rep) (by intro h; cases h)
        | some x =>
          have hx : p x = false := ho (by simpa using hb) x rfl
          simp only [chainOK, hx, Bool.false_and, Bool.not_false, Bool.true_and]
          exact ih true (some rep) (by intro h; cases h)
    · have hp' : p a = false := by simpa using hp
      simp only [collapseRuns, hp', Bool.false_eq_true, if_neg, not_false_iff]
      cases o with
      | none => exact ih false (some a) (by intro _ x hx; cases hx; exact hp')
      | some x =>
        simp only [chainOK, hp', Bool.and_false, Bool.not_false, Bool.true_and]
        exact ih false (some a) (by intro _ y hy; cases hy; exact hp')

theorem goodCleanChar_lowerChar (c : Char) (hd : isDashChar c = false)
    (hw : isPyWS c = false ∨ c = ' ') : goodCleanChar (lowerChar c) = true := by
  have ht := lowerChar_toNat c
  have h45 : ('-' : Char).toNat = 45 := rfl
  have h95 : ('_' : Char).toNat = 95 := rfl
  have h46 : ('.' : Char).toNat = 46 := rfl
  have h9 : ('\t' : Char).toNat = 9 := rfl
  have h13 : ('\r' : Char).toNat = 13 := rfl
  have h10 : ('\n' : Char).toNat = 10 := rfl
  simp only [isDashChar, Bool.or_eq_false_iff, decide_eq_false_iff_not] at hd
  obtain ⟨⟨hda0, hdb0⟩, hdc0⟩ := hd
  have hda : c.toNat ≠ 45 := fun he => hda0 (char_eq_of_toNat_eq (he.trans h45.symm))
  have hdb : c.toNat ≠ 95 := fun he => hdb0 (char_eq_of_toNat_eq (he.trans h95.symm))
  have hdc : c.toNat ≠ 46 := fun he => hdc0 (char_eq_of_toNat_eq (he.trans h46.symm))
  have hwn : c.toNat = 32 ∨
      (c.toNat ≠ 10 ∧ c.toNat ≠ 13 ∧ c.toNat ≠ 9 ∧ c.toNat ≠ 32) := by
    rcases hw with hw | hw
    · right
      simp only [isPyWS, Bool.or_eq_false_iff, decide_eq_false_iff_not] at hw
      obtain ⟨⟨⟨w1, w2⟩, w3⟩, w4⟩ := hw
      have n1 : c.toNat ≠ 10 := fun he => w1 (char_eq_of_toNat_eq (he.trans h10.symm))
      have n2 : c.toNat ≠ 13 := fun he => w2 (char_eq_of_toNat_eq (he.trans h13.symm))
      have n3 : c.toNat ≠ 9 := fun he => w3 (char_eq_of_toNat_eq (he.trans h9.symm))
      have n4 : c.toNat ≠ 32 := fun he => w4 (char_eq_of_toNat_eq he)
      exact ⟨n1, n2, n3, n4⟩
    · left; subst hw; rfl
  simp only [goodCleanChar, Bool.and_eq_true, Bool.not_eq_true', bne_iff_ne]
  refine ⟨⟨⟨⟨⟨⟨?_, ?_⟩, ?_⟩, ?_⟩, ?_⟩, ?_⟩, ?_⟩
  · simp only [isUpperAscii, Bool.and_eq_false_iff, decide_eq_false_iff_not, not_le]
    rw [ht]; split_ifs with h <;> rcases hwn with hwn | hwn <;> omega
  · rw [char_ne_iff_toNat, h45, ht]
    split_ifs with h <;> rcases hwn with hwn | hwn <;> omega
  · rw [char_ne_iff_toNat, h95, ht]
    split_ifs with h <;> rcases hwn with hwn | hwn <;> omega
  · rw [char_ne_iff_toNat, h46, ht]
    split_ifs with h <;> rcases hwn with hwn | hwn <;> omega
  · rw [char_ne_iff_toNat, h9, ht]
    split_ifs with h <;> rcases hwn with hwn | hwn <;> omega
  · rw [char_ne_iff_toNat, h13, ht]
    split_ifs with h <;> rcases hwn with hwn | hwn <;> omega
  · rw [char_ne_iff_toNat, h10, ht]
    split_ifs with h <;> rcases hwn with hwn | hwn <;> omega

theorem statsFold_totals (ds : List (List Nat)) :
    ∀ a : Nat × Nat × Nat × Nat,
      (ds.foldl statsFold a).2.2.1 = a.2.2.1 + (ds.map List.length).sum ∧
      (ds.foldl statsFold a).2.2.2 = a.2.2.2 + ds.length := by
  induction ds with
  | nil => intro a; simp
  | cons x t ih =>
    intro a
    have h := ih (statsFold a x)
    simp only [List.foldl_cons, List.map_cons, List.sum_cons, List.length_cons]
    refine ⟨h.1.trans ?_, h.2.trans ?_⟩ <;> simp [statsFold] <;> omega

theorem statsFold_min_le_max (ds : List (List Nat)) :
    ∀ a : Nat × Nat × Nat × Nat, a.2.1 ≤ a.1 →
      (ds.foldl statsFold a).2.1 ≤ (ds.foldl statsFold a).1 := by
  induction ds with
  | nil => intro a h; simpa using h
  | cons x t ih =>
    intro a h
    simp only [List.foldl_cons]
    exact ih (statsFold a x)
      (le_trans (Nat.min_le_right _ _) (Nat.le_max_right _ _))

/-- C10: `get_dataset_stats` is only defined for non-empty datasets — on an
empty dataset the average computation divides by a zero sample count
(embedded: `none`); on every non-empty dataset it returns a record with
`min_sequence_length ≤ max_sequence_length` whose `average_sequence_length`
is the rounded mean of the sample lengths. -/
theorem get_dataset_stats_spec :
    get_dataset_stats [] = none ∧
    ∀ ds : List (List Nat), ds ≠ [] →
      ∃ st, get_dataset_stats ds = some st ∧
        st.min_sequence_length ≤ st.max_sequence_length ∧
        st.average_sequence_length =
          roundHalfToEven ((ds.map List.length).sum) ds.length := by
  refine ⟨rfl, ?_⟩
  intro ds hds
  have ht := statsFold_totals ds (0, sysMaxsize, 0, 0)
  have hm : (ds.foldl statsFold (0, sysMaxsize, 0, 0)).2.1 ≤
      (ds.foldl statsFold (0, sysMaxsize, 0, 0)).1 := by
    cases ds with
    | nil => exact absurd rfl hds
    | cons x t =>
      simp only [List.foldl_cons]
      exact statsFold_min_le_max t (statsFold (0, sysMaxsize, 0, 0) x)
        (le_trans (Nat.min_le_right _ _) (Nat.le_max_right _ _))
  have hc : (ds.foldl statsFold (0, sysMaxsize, 0, 0)).2.2.2 ≠ 0 := by
    rw [ht.2]
    have : ds.length ≠ 0 := fun h => hds (List.length_eq_zero.mp h)
    omega
  refine ⟨⟨(ds.foldl statsFold (0, sysMaxsize, 0, 0)).1,
      (ds.foldl statsFold (0, sysMaxsize, 0, 0)).2.1,
      roundHalfToEven (ds.foldl statsFold (0, sysMaxsize, 0, 0)).2.2.1
        (ds.foldl statsFold (0, sysMaxsize, 0, 0)).2.2.2⟩, ?_, hm, ?_⟩
  · simp only [get_dataset_stats, hc, if_neg, not_false_iff]
  · simp only [ht.1, ht.2, Nat.zero_add]

/-- Witness for C10 at the concrete dataset `[[0], [0, 0, 0]]`. -/
theorem get_dataset_stats_spec_witness :
    ∃ st, get_dataset_stats [[0], [0, 0, 0]] = some st ∧
      st.min_sequence_length ≤ st.max_sequence_length ∧
      st.average_sequence_length =
        roundHalfToEven ((([[0], [0, 0, 0]] : List (List Nat)).map
          List.length).sum) ([[0], [0, 0, 0]] : List (List Nat)).length :=
  get_dataset_stats_spec.2 [[0], [0, 0, 0]] (by decide)

/-- C1: when the extracted content of a source file yields zero usable
sentences after stripping, `clean_gazette_text` raises (the spec's
`EmptyContentError`) and the destination file is neither created nor
written: the filesystem is returned unchanged. -/
theorem clean_gazette_text_empty_content (content_file : String)
    (content : List String) (fs : GazetteFS) (dest : String)
    (h : usableSentences content = []) :
    clean_gazette_text content_file content fs dest =
      (fs, some ("Could not get text from " ++ content_file)) := by
  simp only [clean_gazette_text, h, if_pos]

/-- Witness for C1: two too-short extracted strings yield no usable
sentence; no file is written and the error is raised. -/
theorem clean_gazette_text_empty_content_witness :
    clean_gazette_text "f.xml" ["ab", " ", "x"] [] "out.json" =
      ([], some ("Could not get text from " ++ "f.xml")) :=
  clean_gazette_text_empty_content "f.xml" ["ab", " ", "x"] [] "out.json"
    (by decide)

/-- C9 (amended): `clean_sentence` output contains no upper-case letter and
no `-`, `_` or `.` character (`remove_repeating_dashes` deletes every run of
those characters, single occurrences included, despite its docstring), and
the whitespace-normalization step replaces every run of spaces, tabs,
carriage returns and newlines by a single space — although the subsequent
dash removal may leave two collapsed spaces adjacent in the final output. -/
theorem clean_sentence_char_classes (s : String) :
    ((clean_sentence s).data.all goodCleanChar) = true ∧
    ((remove_repeating_whitespaces_and_new_lines s).data.all
        (fun c => !(c == '\t') && !(c == '\r') && !(c == '\n'))) = true ∧
    chainOK isPyWS none (remove_repeating_whitespaces_and_new_lines s).data
      = true := by
  refine ⟨?_, ?_, ?_⟩
  · rw [List.all_eq_true]
    intro c hc
    simp only [clean_sentence, remove_repeating_dashes,
      remove_repeating_whitespaces_and_new_lines, List.mem_map,
      List.mem_filter] at hc
    obtain ⟨d, ⟨hd1, hd2⟩, hd3⟩ := hc
    subst hd3
    have hdash : isDashChar d = false := by
      simpa using hd2
    rcases mem_collapseRuns hd1 with h1 | ⟨_, h2⟩
    · exact goodCleanChar_lowerChar d hdash (Or.inr h1)
    · exact goodCleanChar_lowerChar d hdash (Or.inl h2)
  · rw [List.all_eq_true]
    intro c hc
    simp only [remove_repeating_whitespaces_and_new_lines] at hc
    rcases mem_collapseRuns hc with h1 | ⟨_, h2⟩
    · subst h1; decide
    · simp only [isPyWS, Bool.or_eq_false_iff, decide_eq_false_iff_not] at h2
      obtain ⟨⟨⟨w1, w2⟩, w3⟩, _⟩ := h2
      simp [w1, w2, w3, bne_iff_ne]
  · exact chainOK_collapseRuns isPyWS ' ' s.data false none
      (by intro _ a ha; cases ha)

/-- C9 counterexample: on input `"a - b"` the dash removal runs after the
whitespace collapsing, so `clean_sentence` returns `"a  b"`, which contains
a run of two adjacent whitespace characters — the claim that every
whitespace run in the returned string is a single space is false. -/
theorem clean_sentence_adjacent_spaces_cex :
    clean_sentence "a - b" = "a  b" ∧
    chainOK isPyWS none (clean_sentence "a - b").data = false := by
  constructor
  · decide
  · decide

/-! ### Run collapsing: identity on collapsed strings -/

theorem collapseRuns_of_chainOK (p : Char → Bool) (rep : Char)
    (hp : ∀ c, p c = true → c = rep) :
    ∀ (l : List Char) (o : Option Char), chainOK p o l = true →
      collapseRuns p rep l (match o with | some a => p a | none => false) = l := by
  intro l
  induction l with
  | nil => intro o _; cases o <;> rfl
  | cons c cs ih =>
    intro o hch
    cases o with
    | none =>
      simp only [chainOK] at hch
      by_cases hc : p c
      · have hcr : c = rep := hp c hc
        simp only [collapseRuns, hc, if_pos]
        have := ih (some c) hch
        simp only [hc] at this
        rw [this, hcr]; simp
      · simp only [collapseRuns, hc, Bool.false_eq_true, if_neg, not_false_iff]
        have := ih (some c) hch
        simp only [hc] at this
        rw [this]
    | some a =>
      simp only [chainOK, Bool.and_eq_true, Bool.not_eq_true',
        Bool.and_eq_false_iff] at hch
      obtain ⟨hpair, hch⟩ := hch
      by_cases ha : p a
      · have hc : p c = false := by
          rcases hpair with h | h
          · exact absurd h (by simp [ha])
          · exact h
        simp only [ha, collapseRuns, hc, Bool.false_eq_true, if_neg, not_false_iff]
        have := ih (some c) hch
        simp only [hc] at this
        rw [this]
      · have ha' : p a = false := by simpa using ha
        simp only [ha']
        by_cases hc : p c
        · have hcr : c = rep := hp c hc
          simp only [collapseRuns, hc, if_pos]
          have := ih (some c) hch
          simp only [hc] at this
          rw [this, hcr]; simp
        · simp only [collapseRuns, hc, Bool.false_eq_true, if_neg, not_false_iff]
          have := ih (some c) hch
          simp only [hc] at this
          rw [this]

theorem collapseRuns_idem (p : Char → Bool) (rep : Char)
    (hp : ∀ c, p c = true → c = rep) (l : List Char) :
    collapseRuns p rep (collapseRuns p rep l false) false =
      collapseRuns p rep l false := by
  have h := collapseRuns_of_chainOK p rep hp (collapseRuns p rep l false) none
    (chainOK_collapseRuns p rep l false none (by intro _ a ha; cases ha))
  simpa using h

/-- C7: `remove_consecutive_empty_lines` maps every run of 1 to 5 newlines
to exactly one newline (never zero), and the function is idempotent. -/
theorem remove_consecutive_empty_lines_spec :
    remove_consecutive_empty_lines "\n" = "\n" ∧
    remove_consecutive_empty_lines "\n\n" = "\n" ∧
    remove_consecutive_empty_lines "\n\n\n" = "\n" ∧
    remove_consecutive_empty_lines "\n\n\n\n" = "\n" ∧
    remove_consecutive_empty_lines "\n\n\n\n\n" = "\n" ∧
    ∀ s : String,
      remove_consecutive_empty_lines (remove_consecutive_empty_lines s) =
        remove_consecutive_empty_lines s := by
  refine ⟨by decide, by decide, by decide, by decide, by decide, ?_⟩
  intro s
  simp only [remove_consecutive_empty_lines]
  exact congrArg String.mk (collapseRuns_idem isNLChar '\n'
    (by intro c h; simpa [isNLChar] using h) s.data)

/-- C6: for every path whose last directory segment parses as an ISO date
and every cutoff date, `_is_directory_date` returns true exactly when the
directory date is lexicographically at least the cutoff; the boundary is
inclusive, as the two concrete instances show. -/
theorem is_directory_date_spec :
    (∀ (path cutoff : String) (d c : Nat × Nat × Nat),
      parseISODate (String.mk ((splitOnChar '/' path.data []).getLastD [])) =
        some d →
      parseISODate cutoff = some c →
      (_is_directory_date path cutoff = true ↔
        (c.1 < d.1 ∨ (c.1 = d.1 ∧ (c.2.1 < d.2.1 ∨
          (c.2.1 = d.2.1 ∧ c.2.2 ≤ d.2.2)))))) ∧
    _is_directory_date "a/b/c/2022-06-21" "2022-06-21" = true ∧
    _is_directory_date "a/b/c/2022-06-21" "2022-06-22" = false := by
  refine ⟨?_, by decide, by decide⟩
  intro path cutoff d c hd hc
  rw [_is_directory_date, hd, hc]
  simp [dateLE, beq_iff_eq]

/-- Witness for C6 at a concrete path and cutoff, discharging both parsing
hypotheses. -/
theorem is_directory_date_spec_witness :
    _is_directory_date "x/2022-06-20" "2022-06-19" = true :=
  (is_directory_date_spec.1 "x/2022-06-20" "2022-06-19" (2022, 6, 20)
    (2022, 6, 19) (by decide) (by decide)).mpr (by decide)

/-- C5: with a `since` cutoff, `find_gazette_files` yields a subset of the
unfiltered traversal, and every yielded path decomposes as a governing
directory that passes the inclusive date filter plus a file name. -/
theorem find_gazette_files_since_spec (root : String)
    (walk : List (String × String)) (d : String) :
    (∀ p, p ∈ find_gazette_files root walk (some d) →
      p ∈ find_gazette_files root walk none) ∧
    (∀ p, p ∈ find_gazette_files root walk (some d) →
      ∃ dir name, p = dir ++ "/" ++ name ∧ _is_directory_date dir d = true) := by
  constructor
  · intro p hp
    simp only [find_gazette_files, List.mem_filterMap] at hp ⊢
    obtain ⟨e, he, hfe⟩ := hp
    refine ⟨e, he, ?_⟩
    by_cases hcond : _is_directory_date (root ++ "/" ++ e.1) d
    · simp only [hcond, if_pos] at hfe
      exact hfe
    · simp only [hcond, Bool.false_eq_true, if_neg, not_false_iff] at hfe
      exact Option.noConfusion hfe
  · intro p hp
    simp only [find_gazette_files, List.mem_filterMap] at hp
    obtain ⟨e, _, hfe⟩ := hp
    by_cases hcond : _is_directory_date (root ++ "/" ++ e.1) d
    · simp only [hcond, if_pos, Option.some.injEq] at hfe
      exact ⟨root ++ "/" ++ e.1, e.2, hfe.symm, hcond⟩
    · simp only [hcond, Bool.false_eq_true, if_neg, not_false_iff] at hfe
      exact Option.noConfusion hfe

/-- Witness for C5 on a one-file walk, discharging the membership
hypothesis at a concrete yielded path. -/
theorem find_gazette_files_since_spec_witness :
    ∃ dir name,
      ("r" ++ "/" ++ "1234/2022-06-21" ++ "/" ++ "a.txt" : String) =
        dir ++ "/" ++ name ∧ _is_directory_date dir "2022-06-20" = true :=
  (find_gazette_files_since_spec "r" [("1234/2022-06-21", "a.txt")]
    "2022-06-20").2 ("r" ++ "/" ++ "1234/2022-06-21" ++ "/" ++ "a.txt")
    (by decide)

/-! ### The structural line filter -/

theorem dropWhile_append_of_all {p : Char → Bool} {xs ys : List Char}
    (h : ∀ c ∈ xs, p c = true) :
    (xs ++ ys).dropWhile p = ys.dropWhile p := by
  rw [List.dropWhile_append]
  have hx : xs.dropWhile p = [] := List.dropWhile_eq_nil_iff.mpr h
  simp [hx]

theorem takeWhile_append_of_all {p : Char → Bool} {xs ys : List Char}
    (h : ∀ c ∈ xs, p c = true) :
    (xs ++ ys).takeWhile p = xs ++ ys.takeWhile p := by
  rw [List.takeWhile_append]
  have hx : xs.takeWhile p = xs := List.takeWhile_eq_self_iff.mpr h
  simp [hx]

theorem stripLineFuel_of_none {l : List Char} (h : stripMarkerOnce l = none) :
    ∀ fuel, stripLineFuel fuel l = l := by
  intro fuel
  cases fuel with
  | zero => rfl
  | succ n => simp [stripLineFuel, h]

theorem stripBody_marker (nsp : Nat) (ds numTail rest : List Char)
    (hne : ds ≠ []) (hdig : ∀ c ∈ ds, isDigitChar c = true)
    (hnt : numTail = ['.', 'º'] ∨ numTail = ['.'] ∨ numTail = ['º'] ∨
      numTail = [])
    (hrest : rest.dropWhile isPyWS = rest) :
    stripBody (List.replicate nsp ' ' ++ ds ++ numTail ++ ' ' :: rest) =
      some rest := by
  obtain ⟨d, ds', rfl⟩ : ∃ d ds', ds = d :: ds' := by
    cases ds with
    | nil => exact absurd rfl hne
    | cons d t => exact ⟨d, t, rfl⟩
  have hd : isDigitChar d = true := hdig d (List.mem_cons_self _ _)
  have hds' : ∀ c ∈ ds', isDigitChar c = true :=
    fun c hc => hdig c (List.mem_cons_of_mem _ hc)
  have hdsp : isSpaceChar d = false := by
    simp only [isSpaceChar, decide_eq_false_iff_not]
    intro he
    subst he
    exact absurd hd (by decide)
  have hrep : ∀ c ∈ List.replicate nsp ' ', isSpaceChar c = true := by
    intro c hc
    rw [List.eq_of_mem_replicate hc]
    rfl
  have hdw : ∀ T : List Char,
      List.dropWhile isSpaceChar (List.replicate nsp ' ' ++ d :: T) =
        d :: T := by
    intro T
    rw [dropWhile_append_of_all hrep,
      List.dropWhile_cons_of_neg (by simp [hdsp])]
  have htake : ∀ (a : Char) (T : List Char), isDigitChar a = false →
      List.takeWhile isDigitChar (d :: (ds' ++ a :: T)) = d :: ds' := by
    intro a T ha
    rw [List.takeWhile_cons_of_pos (by simp [hd]), takeWhile_append_of_all hds',
      List.takeWhile_cons_of_neg (by simp [ha]), List.append_nil]
  have hdrop : ∀ (a : Char) (T : List Char), isDigitChar a = false →
      List.dropWhile isDigitChar (d :: (ds' ++ a :: T)) = a :: T := by
    intro a T ha
    rw [List.dropWhile_cons_of_pos (by simp [hd]), dropWhile_append_of_all hds',
      List.dropWhile_cons_of_neg (by simp [ha])]
  have hws : List.dropWhile isPyWS (' ' :: rest) = rest := by
    rw [List.dropWhile_cons_of_pos (by decide)]
    exact hrest
  rcases hnt with rfl | rfl | rfl | rfl
  · have h1 := hdw (ds' ++ '.' :: 'º' :: ' ' :: rest)
    have h2 := htake '.' ('º' :: ' ' :: rest) (by decide)
    have h3 := hdrop '.' ('º' :: ' ' :: rest) (by decide)
    simp only [stripBody, List.append_assoc, List.cons_append, List.nil_append,
      List.singleton_append] at h1 h2 h3 ⊢
    rw [h1, h2, h3]
    simp [hws]
    try decide
  · have h1 := hdw (ds' ++ '.' :: ' ' :: rest)
    have h2 := htake '.' (' ' :: rest) (by decide)
    have h3 := hdrop '.' (' ' :: rest) (by decide)
    simp only [stripBody, List.append_assoc, List.cons_append, List.nil_append,
      List.singleton_append] at h1 h2 h3 ⊢
    rw [h1, h2, h3]
    simp [hws]
    try decide
  · have h1 := hdw (ds' ++ 'º' :: ' ' :: rest)
    have h2 := htake 'º' (' ' :: rest) (by decide)
    have h3 := hdrop 'º' (' ' :: rest) (by decide)
    simp only [stripBody, List.append_assoc, List.cons_append, List.nil_append,
      List.singleton_append] at h1 h2 h3 ⊢
    rw [h1, h2, h3]
    simp [hws]
    try decide
  · have h1 := hdw (ds' ++ ' ' :: rest)
    have h2 := htake ' ' rest (by decide)
    have h3 := hdrop ' ' rest (by decide)
    simp only [stripBody, List.append_assoc, List.cons_append, List.nil_append,
      List.singleton_append] at h1 h2 h3 ⊢
    rw [h1, h2, h3]
    simp [hws]
    try decide

theorem stripMarkerOnce_art (r : List Char) :
    stripMarkerOnce (['A', 'r', 't', '.'] ++ r) = stripBody r := rfl

theorem stripMarkerOnce_sect (r : List Char) :
    stripMarkerOnce (['§'] ++ r) = stripBody r := rfl

theorem splitOnChar_of_not_mem (sep : Char) :
    ∀ (l buf : List Char), (∀ c ∈ l, c ≠ sep) →
      splitOnChar sep l buf = [buf.reverse ++ l] := by
  intro l
  induction l with
  | nil => intro buf _; simp [splitOnChar]
  | cons c cs ih =>
    intro buf h
    have hc : ¬(c = sep) := h c (List.mem_cons_self _ _)
    simp only [splitOnChar, hc, if_neg, not_false_iff]
    rw [ih (c :: buf) (fun x hx => h x (List.mem_cons_of_mem _ hx))]
    simp

theorem digit_ne_nl {c : Char} (h : isDigitChar c = true) : c ≠ '\n' := by
  intro he
  subst he
  exact absurd h (by decide)

theorem joinLines_singleton (x : List Char) : joinLines [x] = x := by
  simp [joinLines, List.intercalate]

/-- C8: `remove_special_line_prefix` strips a line-leading `Art.`/`§` marker
(one-or-more-digit numeral, optional trailing period, optional ordinal
marker) together with the separating space, preserving the rest of the line
verbatim; multi-digit numerals and bare numerals both match; a line that
becomes empty after stripping collapses away; mid-sentence citations such as
`Art. 80, inc. XI` are not stripped. -/
theorem remove_special_line_prefix_spec :
    (∀ (useArt : Bool) (nsp : Nat) (ds numTail rest : List Char),
      ds ≠ [] → (∀ c ∈ ds, isDigitChar c = true) →
      (numTail = ['.', 'º'] ∨ numTail = ['.'] ∨ numTail = ['º'] ∨
        numTail = []) →
      rest.dropWhile isPyWS = rest →
      stripMarkerOnce rest = none →
      (∀ c ∈ rest, c ≠ '\n') →
      remove_special_line_prefix (String.mk
        ((if useArt then ['A', 'r', 't', '.'] else ['§']) ++
          List.replicate nsp ' ' ++ ds ++ numTail ++ ' ' :: rest)) =
        String.mk rest) ∧
    remove_special_line_prefix "Art. 40.º Fica X" = "Fica X" ∧
    remove_special_line_prefix "§ 2 A" = "A" ∧
    remove_special_line_prefix "§ 20 A" = "A" ∧
    remove_special_line_prefix "Art.5. Fica X" = "Fica X" ∧
    remove_special_line_prefix "A\nArt. 5.º\nB" = "A\nB" ∧
    remove_special_line_prefix "Art. 80, inc. XI" = "Art. 80, inc. XI" := by
  refine ⟨?_, by decide, by decide, by decide, by decide, by decide, by decide⟩
  intro useArt nsp ds numTail rest hne hdig hnt hrest hstop hnl
  set L := ((if useArt then ['A', 'r', 't', '.'] else ['§']) ++
    List.replicate nsp ' ' ++ ds ++ numTail ++ ' ' :: rest) with hLdef
  have hbody : stripBody (List.replicate nsp ' ' ++ ds ++ numTail ++
      ' ' :: rest) = some rest :=
    stripBody_marker nsp ds numTail rest hne hdig hnt hrest
  have hsome : stripMarkerOnce L = some rest := by
    rw [hLdef]
    cases useArt with
    | true =>
      simp only [if_true]
      rw [List.append_assoc, List.append_assoc, List.append_assoc,
        stripMarkerOnce_art]
      rw [← List.append_assoc, ← List.append_assoc]
      exact hbody
    | false =>
      simp only [Bool.false_eq_true, if_false]
      rw [List.append_assoc, List.append_assoc, List.append_assoc,
        stripMarkerOnce_sect]
      rw [← List.append_assoc, ← List.append_assoc]
      exact hbody
  have hLne : L ≠ [] := by
    rw [hLdef]
    cases useArt <;> simp
  have hnlAll : ∀ c ∈ L, c ≠ '\n' := by
    rw [hLdef]
    intro c hc
    simp only [List.mem_append, List.mem_cons] at hc
    rcases hc with ((((hc | hc) | hc) | hc) | hc)
    · cases useArt <;> simp_all <;> rcases hc with rfl | rfl | rfl | rfl <;>
        decide
    · rw [List.eq_of_mem_replicate hc]; decide
    · exact digit_ne_nl (hdig c hc)
    · rcases hnt with rfl | rfl | rfl | rfl <;> simp at hc <;>
        first
        | (rcases hc with rfl | rfl; decide; decide)
        | (subst hc; decide)
    · rcases hc with rfl | hc
      · decide
      · exact hnl c hc
  have hsplit : splitOnChar '\n' L [] = [L] := by
    rw [splitOnChar_of_not_mem '\n' _ [] hnlAll]
    simp
  have hstrip : stripLine L = rest := by
    rw [stripLine]
    obtain ⟨a, L', hcons⟩ : ∃ a L', L = a :: L' := by
      cases hL2 : L with
      | nil => exact absurd hL2 hLne
      | cons a t => exact ⟨a, t, rfl⟩
    rw [hcons]
    simp only [List.length_cons, stripLineFuel]
    rw [← hcons, hsome]
    exact stripLineFuel_of_none hstop _
  have hproc : processLines [L] = if rest = [] then [] else [rest] := by
    simp only [processLines, List.filterMap]
    rw [hstrip]
    by_cases hr : rest = []
    · subst hr
      simp [hLne]
    · simp [hr, List.isEmpty_iff]
  show String.mk (joinLines (processLines (splitOnChar '\n' L []))) =
    String.mk rest
  rw [hsplit, hproc]
  by_cases hr : rest = []
  · subst hr
    simp only [if_pos]
    show String.mk (joinLines []) = String.mk []
    simp [joinLines, List.intercalate]
  · rw [if_neg hr, joinLines_singleton]

/-- Witness for C8: stripping `Art. 40.º ` from a concrete line. -/
theorem remove_special_line_prefix_spec_witness :
    remove_special_line_prefix (String.mk
      (['A', 'r', 't', '.'] ++ List.replicate 1 ' ' ++ ['4', '0'] ++
        ['.', 'º'] ++ ' ' :: "Fica".data)) = String.mk "Fica".data :=
  remove_special_line_prefix_spec.1 true 1 ['4', '0'] ['.', 'º'] "Fica".data
    (by decide) (by decide) (Or.inl rfl) (by decide) (by decide) (by decide)

/-! ### Sentence segmentation: content preservation and split shape -/

theorem ifPend_all_ws {p : Prop} [Decidable p] {buf : List Char}
    (h : (if p then some ([] : List Char) else none) = some buf) :
    buf.all isPyWS = true := by
  split at h
  · injection h with h2
    subst h2
    rfl
  · exact Option.noConfusion h

theorem filter_reverse_all_ws {buf : List Char} (h : buf.all isPyWS = true) :
    buf.reverse.filter (fun c => !(isPyWS c)) = [] := by
  rw [List.filter_eq_nil_iff]
  intro a ha
  rw [List.mem_reverse] at ha
  have := List.all_eq_true.mp h a ha
  simp [this]

theorem segAux_keep :
    ∀ (l acc tok : List Char) (q : Bool) (pend : Option (List Char)),
      (∀ buf, pend = some buf → buf.all isPyWS = true) →
      ((segAux l acc tok q pend).flatten).filter (fun c => !(isPyWS c)) =
        acc.reverse.filter (fun c => !(isPyWS c)) ++
          l.filter (fun c => !(isPyWS c)) := by
  intro l
  induction l with
  | nil =>
    intro acc tok q pend h
    cases pend with
    | none => simp [segAux]
    | some buf =>
      have hbuf := h buf rfl
      simp only [segAux, List.flatten, List.append_nil, List.reverse_append,
        List.filter_append, List.filter_nil]
      rw [filter_reverse_all_ws hbuf]
      simp
  | cons c cs ih =>
    intro acc tok q pend h
    cases pend with
    | some buf =>
      have hbuf := h buf rfl
      by_cases h1 : isPyWS c = true
      · simp only [segAux, h1, if_pos]
        rw [ih acc tok q (some (c :: buf))
          (by intro b hb; injection hb with hb; subst hb; simp [h1, hbuf])]
        simp [List.filter_cons, h1]
      · simp only [segAux, h1, Bool.false_eq_true, if_neg, not_false_iff]
        by_cases h2 : (!buf.isEmpty && isUpperAscii c && !q) = true
        · simp only [h2, if_pos]
          by_cases h3 : isAbbrevTok tok = true
          · simp only [h3, if_pos]
            rw [ih (c :: acc) [c] q none (by intro b hb; cases hb)]
            simp [List.filter_cons, h1]
          · simp only [h3, Bool.false_eq_true, if_neg, not_false_iff]
            by_cases h4 : isCitationTok tok = true
            · simp only [h4, if_pos]
              rw [ih (c :: (buf ++ acc)) [c] q none
                (by intro b hb; cases hb)]
              simp only [List.reverse_cons, List.reverse_append,
                List.filter_append, List.filter_cons, h1]
              rw [filter_reverse_all_ws hbuf]
              simp [List.filter_cons, h1]
            · simp only [h4, Bool.false_eq_true, if_neg, not_false_iff]
              simp only [List.flatten_cons, List.filter_append]
              rw [ih [c] [c] q none (by intro b hb; cases hb)]
              simp [List.filter_cons, h1]
        · simp only [h2, Bool.false_eq_true, if_neg, not_false_iff]
          rw [ih (c :: (buf ++ acc)) _ _ _ (fun b hb => ifPend_all_ws hb)]
          simp only [List.reverse_cons, List.reverse_append,
            List.filter_append, List.filter_cons, h1]
          rw [filter_reverse_all_ws hbuf]
          simp [List.filter_cons, h1]
    | none =>
      by_cases h1 : isPyWS c = true
      · simp only [segAux, h1, if_pos]
        rw [ih (c :: acc) [] q none (by intro b hb; cases hb)]
        simp [List.filter_cons, h1]
      · simp only [segAux, h1, Bool.false_eq_true, if_neg, not_false_iff]
        rw [ih (c :: acc) _ _ _ (fun b hb => ifPend_all_ws hb)]
        simp [List.filter_cons, h1]

theorem filter_dropWhile_ws (l : List Char) :
    (l.dropWhile isPyWS).filter (fun c => !(isPyWS c)) =
      l.filter (fun c => !(isPyWS c)) := by
  induction l with
  | nil => rfl
  | cons c cs ih =>
    by_cases h : isPyWS c = true
    · rw [List.dropWhile_cons_of_pos h, ih]
      simp [List.filter_cons, h]
    · rw [List.dropWhile_cons_of_neg (by simp [h])]

theorem filter_trimChars (x : List Char) :
    (trimChars x).filter (fun c => !(isPyWS c)) =
      x.filter (fun c => !(isPyWS c)) := by
  rw [trimChars, List.filter_reverse, filter_dropWhile_ws,
    List.filter_reverse, List.reverse_reverse, filter_dropWhile_ws]

theorem flatten_filter_nonempty (K : List (List Char)) :
    (K.filter (fun t => !t.isEmpty)).flatten = K.flatten := by
  induction K with
  | nil => rfl
  | cons x t ih =>
    cases x with
    | nil => simpa [List.filter_cons] using ih
    | cons a b => simp [List.filter_cons, ih]

theorem flatten_map_trim_keep (K : List (List Char)) :
    ((K.map trimChars).flatten).filter (fun c => !(isPyWS c)) =
      (K.flatten).filter (fun c => !(isPyWS c)) := by
  induction K with
  | nil => rfl
  | cons x t ih =>
    simp only [List.map_cons, List.flatten_cons, List.filter_append, ih,
      filter_trimChars]

theorem joinSentences_keep (K : List (List Char)) :
    (joinSentences K).filter (fun c => !(isPyWS c)) =
      K.flatten.filter (fun c => !(isPyWS c)) := by
  induction K with
  | nil => rfl
  | cons x t ih =>
    cases t with
    | nil => simp [joinSentences]
    | cons y t' =>
      have ih' := ih
      simp only [List.flatten_cons, List.filter_append] at ih'
      have hsp : isPyWS ' ' = true := rfl
      simp only [joinSentences, List.flatten_cons, List.filter_append,
        List.filter_cons, hsp, Bool.not_true, Bool.false_eq_true, if_neg,
        not_false_iff, ih']

/-- C2: concatenating the segmenter's sentences with single spaces
reconstructs the input up to whitespace: no character other than whitespace
is added, changed or lost by segmentation, and the non-whitespace characters
keep their order. -/
theorem sentence_segmentation_roundtrip (s : String) :
    (joinSentences (segmentChars s.data)).filter (fun c => !(isPyWS c)) =
      s.data.filter (fun c => !(isPyWS c)) := by
  rw [joinSentences_keep, segmentChars, flatten_filter_nonempty,
    flatten_map_trim_keep]
  have := segAux_keep s.data [] [] false none (by intro b hb; cases hb)
  simpa using this

theorem term_not_ws {c : Char} (h : isTermChar c = true) : isPyWS c = false := by
  simp only [isTermChar, Bool.or_eq_true, decide_eq_true_iff] at h
  rcases h with (h | h) | h <;> subst h <;> decide

theorem segAux_ne_nil :
    ∀ (l acc tok : List Char) (q : Bool) (pend : Option (List Char)),
      segAux l acc tok q pend ≠ [] := by
  intro l
  induction l with
  | nil =>
    intro acc tok q pend
    cases pend <;> simp [segAux]
  | cons c cs ih =>
    intro acc tok q pend
    cases pend with
    | some buf =>
      by_cases h1 : isPyWS c = true
      · simpa [segAux, h1] using ih acc tok q (some (c :: buf))
      · simp only [segAux, h1, Bool.false_eq_true, if_neg, not_false_iff]
        by_cases h2 : (!buf.isEmpty && isUpperAscii c && !q) = true
        · simp only [h2, if_pos]
          by_cases h3 : isAbbrevTok tok = true
          · simpa [h3] using ih (c :: acc) [c] q none
          · simp only [h3, Bool.false_eq_true, if_neg, not_false_iff]
            by_cases h4 : isCitationTok tok = true
            · simpa [h4] using ih (c :: (buf ++ acc)) [c] q none
            · simp [h4]
        · simpa [h2] using ih (c :: (buf ++ acc)) _ _ _
    | none =>
      by_cases h1 : isPyWS c = true
      · simpa [segAux, h1] using ih (c :: acc) [] q none
      · simpa [segAux, h1] using ih (c :: acc) _ _ _

theorem segAux_dropLast_terminal :
    ∀ (l acc tok : List Char) (q : Bool) (pend : Option (List Char)),
      (∀ buf, pend = some buf →
        ∃ t acc₀, acc = t :: acc₀ ∧ isTermChar t = true) →
      ∀ sent ∈ (segAux l acc tok q pend).dropLast,
        ∃ c, sent.getLast? = some c ∧ isTermChar c = true := by
  intro l
  induction l with
  | nil =>
    intro acc tok q pend _ sent hs
    cases pend <;> simp [segAux] at hs
  | cons c cs ih =>
    intro acc tok q pend h sent hs
    cases pend with
    | some buf =>
      obtain ⟨t, acc₀, hacc, hterm⟩ := h buf rfl
      by_cases h1 : isPyWS c = true
      · simp only [segAux, h1, if_pos] at hs
        exact ih acc tok q (some (c :: buf))
          (by intro b hb; exact ⟨t, acc₀, hacc, hterm⟩) sent hs
      · simp only [segAux, h1, Bool.false_eq_true, if_neg, not_false_iff] at hs
        by_cases h2 : (!buf.isEmpty && isUpperAscii c && !q) = true
        · simp only [h2, if_pos] at hs
          by_cases h3 : isAbbrevTok tok = true
          · simp only [h3, if_pos] at hs
            exact ih (c :: acc) [c] q none (by intro b hb; cases hb) sent hs
          · simp only [h3, Bool.false_eq_true, if_neg, not_false_iff] at hs
            by_cases h4 : isCitationTok tok = true
            · simp only [h4, if_pos] at hs
              exact ih (c :: (buf ++ acc)) [c] q none
                (by intro b hb; cases hb) sent hs
            · simp only [h4, Bool.false_eq_true, if_neg, not_false_iff] at hs
              rw [List.dropLast_cons_of_ne_nil (segAux_ne_nil cs [c] [c] q none)]
                at hs
              rcases List.mem_cons.mp hs with rfl | hs2
              · refine ⟨t, ?_, hterm⟩
                rw [hacc, List.reverse_cons]
                exact List.getLast?_concat _
              · exact ih [c] [c] q none (by intro b hb; cases hb) sent hs2
        · simp only [h2, Bool.false_eq_true, if_neg, not_false_iff] at hs
          refine ih (c :: (buf ++ acc)) _ _ _ ?_ sent hs
          intro b hb
          refine ⟨c, buf ++ acc, rfl, ?_⟩
          by_cases hcond : (isTermChar c &&
              !(if c = '"' then !q else q)) = true
          · exact (Bool.and_eq_true_iff.mp hcond).1
          · simp [hcond] at hb
    | none =>
      by_cases h1 : isPyWS c = true
      · simp only [segAux, h1, if_pos] at hs
        exact ih (c :: acc) [] q none (by intro b hb; cases hb) sent hs
      · simp only [segAux, h1, Bool.false_eq_true, if_neg, not_false_iff] at hs
        refine ih (c :: acc) _ _ _ ?_ sent hs
        intro b hb
        refine ⟨c, acc, rfl, ?_⟩
        by_cases hcond : (isTermChar c && !(if c = '"' then !q else q)) = true
        · exact (Bool.and_eq_true_iff.mp hcond).1
        · simp [hcond] at hb

theorem getLast?_trimChars {x : List Char} {c : Char} (hc : isPyWS c = false)
    (h : x.getLast? = some c) : (trimChars x).getLast? = some c := by
  obtain ⟨f, rfl⟩ := List.getLast?_eq_some_iff.mp h
  have hy : ∃ g : List Char, (f ++ [c]).dropWhile isPyWS = g ++ [c] := by
    rw [List.dropWhile_append]
    split
    · exact ⟨[], by rw [List.dropWhile_cons_of_neg (by simp [hc])]; rfl⟩
    · exact ⟨f.dropWhile isPyWS, rfl⟩
  obtain ⟨g, hg⟩ := hy
  rw [trimChars, hg, List.getLast?_eq_head?_reverse, List.reverse_reverse]
  simp only [List.reverse_append, List.reverse_singleton,
    List.singleton_append]
  rw [List.dropWhile_cons_of_neg (by simp [hc])]
  rfl

theorem dropLast_filter_subset {α : Type} (pred : α → Bool) :
    ∀ (K : List α), (∀ a ∈ K.dropLast, pred a = true) →
      ∀ x ∈ (K.filter pred).dropLast, x ∈ K.dropLast := by
  intro K
  induction K with
  | nil => intro _ x hx; simp at hx
  | cons a t ih =>
    intro h x hx
    cases t with
    | nil =>
      by_cases hp : pred a = true <;> simp [List.filter_cons, hp] at hx
    | cons b t' =>
      have hpa : pred a = true := h a (by simp)
      rw [List.filter_cons_of_pos hpa] at hx
      cases hft : (b :: t').filter pred with
      | nil => rw [hft] at hx; simp at hx
      | cons z zs =>
        rw [hft, List.dropLast_cons_of_ne_nil (by simp)] at hx
        rcases List.mem_cons.mp hx with rfl | hx2
        · rw [List.dropLast_cons_of_ne_nil (by simp)]
          exact List.mem_cons_self _ _
        · have hsub := ih (by
            intro y hy
            exact h y (by
              rw [List.dropLast_cons_of_ne_nil (by simp)]
              exact List.mem_cons_of_mem _ hy)) x (by rw [hft]; exact hx2)
          rw [List.dropLast_cons_of_ne_nil (by simp)]
          exact List.mem_cons_of_mem _ hsub

/-- C3: the segmenter splits only at sentence-final `.`, `?` or `!` followed
by whitespace and a new sentence start — every non-final sentence ends with
terminal punctuation — never loses or reorders non-whitespace content
(output order matches input order), and does not split at
abbreviation/ordinal citations (`inc. XI`, `art. 80`, `art. 3.`) nor at
terminal punctuation inside a quoted sub-clause. -/
theorem sentence_segmentation_split_rules :
    (∀ s : String, ∀ sent ∈ (segmentChars s.data).dropLast,
      ∃ c, sent.getLast? = some c ∧ isTermChar c = true) ∧
    (∀ s : String,
      (segmentChars s.data).flatten.filter (fun c => !(isPyWS c)) =
        s.data.filter (fun c => !(isPyWS c))) ∧
    sentence_segmentation "O art. 80, inc. XI, da Lei vale. A regra segue." =
      ["O art. 80, inc.XI, da Lei vale.", "A regra segue."] ∧
    sentence_segmentation "Diz: \"Art. 73. X segue.\" (NR) fim. Outro." =
      ["Diz: \"Art. 73. X segue.\" (NR) fim.", "Outro."] ∧
    sentence_segmentation "No caso do art. 3. O resto segue." =
      ["No caso do art. 3. O resto segue."] ∧
    sentence_segmentation "Primeira frase do texto. Segunda frase do texto" =
      ["Primeira frase do texto.", "Segunda frase do texto"] := by
  refine ⟨?_, ?_, by decide, by decide, by decide, by decide⟩
  · intro s sent hs
    have hmapLast : ∀ a ∈ ((segAux s.data [] [] false none).map
        trimChars).dropLast, ∃ c, a.getLast? = some c ∧ isTermChar c = true := by
      intro a ha
      rw [← List.map_dropLast] at ha
      obtain ⟨sent0, hs0, rfl⟩ := List.mem_map.mp ha
      obtain ⟨c, hlast, hterm⟩ := segAux_dropLast_terminal s.data [] [] false
        none (by intro b hb; cases hb) sent0 hs0
      exact ⟨c, getLast?_trimChars (term_not_ws hterm) hlast, hterm⟩
    have hpred : ∀ a ∈ ((segAux s.data [] [] false none).map
        trimChars).dropLast, (!a.isEmpty) = true := by
      intro a ha
      obtain ⟨c, hlast, _⟩ := hmapLast a ha
      cases a with
      | nil => exact Option.noConfusion hlast
      | cons x xs => rfl
    simp only [segmentChars] at hs
    exact hmapLast sent (dropLast_filter_subset _ _ hpred sent hs)
  · intro s
    rw [segmentChars, flatten_filter_nonempty, flatten_map_trim_keep]
    have := segAux_keep s.data [] [] false none (by intro b hb; cases hb)
    simpa using this

/-- Witness for C3: the first sentence of a two-sentence input ends with
terminal punctuation. -/
theorem sentence_segmentation_split_rules_witness :
    ∃ c, ("Ab.".data).getLast? = some c ∧ isTermChar c = true :=
  sentence_segmentation_split_rules.1 "Ab. Cd e." "Ab.".data (by decide)

/-! ### chainOK toolbox -/

theorem chainOK_cons_elim {p : Char → Bool} {o : Option Char} {c : Char}
    {cs : List Char} (h : chainOK p o (c :: cs) = true) :
    chainOK p (some c) cs = true := by
  cases o with
  | none => exact h
  | some a =>
    simp only [chainOK, Bool.and_eq_true] at h
    exact h.2

theorem chainOK_none_of_any {p : Char → Bool} {o : Option Char}
    {l : List Char} (h : chainOK p o l = true) :
    chainOK p none l = true := by
  cases l with
  | nil => rfl
  | cons c cs => exact chainOK_cons_elim h

theorem chainOK_some_of_false {p : Char → Bool} {a : Char} {l : List Char}
    (ha : p a = false) (h : chainOK p none l = true) :
    chainOK p (some a) l = true := by
  cases l with
  | nil => rfl
  | cons c cs =>
    simp only [chainOK, ha, Bool.false_and, Bool.not_false, Bool.true_and]
    exact h

theorem chainOK_strengthen {p : Char → Bool} {o : Option Char} {l : List Char}
    (ho : ∀ a, o = some a → p a = false) (h : chainOK p none l = true) :
    chainOK p o l = true := by
  cases o with
  | none => exact h
  | some a => exact chainOK_some_of_false (ho a rfl) h

theorem chainOK_all_false {p : Char → Bool} :
    ∀ {x : List Char}, (∀ a ∈ x, p a = false) → ∀ o, chainOK p o x = true := by
  intro x
  induction x with
  | nil => intro _ o; cases o <;> rfl
  | cons c cs ih =>
    intro h o
    have hc : p c = false := h c (List.mem_cons_self _ _)
    have ht := ih (fun a ha => h a (List.mem_cons_of_mem _ ha)) (some c)
    cases o with
    | none => exact ht
    | some a =>
      simp only [chainOK, hc, Bool.and_false, Bool.not_false, Bool.true_and]
      exact ht

theorem chainOK_append_safe {p : Char → Bool} :
    ∀ {x : List Char}, x ≠ [] → (∀ a ∈ x, p a = false) →
      ∀ {y : List Char}, chainOK p none y = true →
      ∀ o, chainOK p o (x ++ y) = true := by
  intro x
  induction x with
  | nil => intro h; exact absurd rfl h
  | cons c cs ih =>
    intro _ hall y hy o
    have hc : p c = false := hall c (List.mem_cons_self _ _)
    have hrest : chainOK p (some c) (cs ++ y) = true := by
      cases cs with
      | nil =>
        simpa using chainOK_some_of_false hc hy
      | cons d ds =>
        exact ih (by simp) (fun a ha => hall a (List.mem_cons_of_mem _ ha))
          hy (some c)
    cases o with
    | none => exact hrest
    | some a =>
      simp only [List.cons_append, chainOK, hc, Bool.and_false,
        Bool.not_false, Bool.true_and]
      exact hrest

theorem chainOK_elim_right {p : Char → Bool} :
    ∀ {x : List Char} {o : Option Char} {y : List Char},
      chainOK p o (x ++ y) = true → chainOK p none y = true := by
  intro x
  induction x with
  | nil => intro o y h; exact chainOK_none_of_any h
  | cons c cs ih =>
    intro o y h
    exact ih (chainOK_cons_elim (by simpa using h))

theorem chainOK_replace_tail {p : Char → Bool} {c : Char} :
    ∀ {x : List Char} {o : Option Char} {y z : List Char},
      chainOK p o (x ++ c :: y) = true → chainOK p (some c) z = true →
      chainOK p o (x ++ c :: z) = true := by
  intro x
  induction x with
  | nil =>
    intro o y z h hz
    cases o with
    | none => simpa using hz
    | some a =>
      simp only [List.nil_append, chainOK, Bool.and_eq_true] at h ⊢
      exact ⟨h.1, hz⟩
  | cons d ds ih =>
    intro o y z h hz
    cases o with
    | none =>
      simp only [List.cons_append, chainOK] at h ⊢
      exact ih h hz
    | some a =>
      simp only [List.cons_append, chainOK, Bool.and_eq_true] at h ⊢
      exact ⟨h.1, ih h.2 hz⟩

theorem chainOK_collapseRuns_other {p q : Char → Bool} {rep : Char}
    (hrep : p rep = false) :
    ∀ (l : List Char) (b : Bool) (o : Option Char),
      (b = true → ∀ a, o = some a → p a = false) →
      chainOK p o l = true → chainOK p o (collapseRuns q rep l b) = true := by
  intro l
  induction l with
  | nil => intro b o _ _; cases o <;> rfl
  | cons c cs ih =>
    intro b o hb h
    by_cases hq : q c = true
    · by_cases hbt : b = true
      · subst hbt
        simp only [collapseRuns, hq, if_pos, if_true]
        refine ih true o (fun _ => hb rfl) ?_
        refine chainOK_strengthen (hb rfl) ?_
        exact chainOK_none_of_any (chainOK_cons_elim h)
      · have hbf : b = false := by simpa using hbt
        subst hbf
        simp only [collapseRuns, hq, if_pos, Bool.false_eq_true, if_neg,
          not_false_iff]
        have htail : chainOK p (some rep) (collapseRuns q rep cs true) = true := by
          refine ih true (some rep) (by intro _ a ha; cases ha; exact hrep) ?_
          exact chainOK_some_of_false hrep
            (chainOK_none_of_any (chainOK_cons_elim h))
        cases o with
        | none => exact htail
        | some a =>
          simp only [chainOK, hrep, Bool.and_false, Bool.not_false,
            Bool.true_and]
          exact htail
    · have hq' : q c = false := by simpa using hq
      simp only [collapseRuns, hq', Bool.false_eq_true, if_neg, not_false_iff]
      have htail : chainOK p (some c) (collapseRuns q rep cs false) = true :=
        ih false (some c) (by intro h2; cases h2) (chainOK_cons_elim h)
      cases o with
      | none => exact htail
      | some a =>
        simp only [chainOK, Bool.and_eq_true] at h ⊢
        exact ⟨h.1, htail⟩

theorem chainOK_map {p : Char → Bool} {g : Char → Char}
    (hg : ∀ c, p (g c) = p c) :
    ∀ (l : List Char) (o : Option Char), chainOK p o l = true →
      chainOK p (o.map g) (l.map g) = true := by
  intro l
  induction l with
  | nil => intro o _; cases o <;> rfl
  | cons c cs ih =>
    intro o h
    cases o with
    | none =>
      simp only [List.map_cons, Option.map_none', chainOK]
      exact ih (some c) (chainOK_cons_elim h)
    | some a =>
      simp only [List.map_cons, Option.map_some', chainOK, hg,
        Bool.and_eq_true] at h ⊢
      refine ⟨?_, ih (some c) h.2⟩
      simpa using h.1

/-! ### The filler-run scanner and `remove_line_with_punctuation_only` -/

theorem poOK_eq_scan (l : List Char) : ∀ s, poOK s l = (poScan s l).1 := by
  induction l with
  | nil => intro s; rfl
  | cons c cs ih =>
    intro s
    simp only [poOK, poScan]
    split_ifs with h1 h2 h3
    · rfl
    · exact ih true
    · exact ih s
    · exact ih false

theorem poOK_append (x : List Char) :
    ∀ (s : Bool) (y : List Char),
      poOK s (x ++ y) = ((poScan s x).1 && poOK (poScan s x).2 y) := by
  induction x with
  | nil => intro s y; simp [poScan]
  | cons c cs ih =>
    intro s y
    simp only [List.cons_append, poOK, poScan]
    split_ifs with h1 h2 h3
    · rfl
    · exact ih true y
    · exact ih s y
    · exact ih false y

theorem poOK_mono : ∀ {l : List Char}, poOK true l = true →
    poOK false l = true := by
  intro l
  induction l with
  | nil => intro _; rfl
  | cons c cs ih =>
    intro h
    by_cases hF : isFillerChar c = true
    · rw [poOK, if_pos hF, if_pos rfl] at h
      exact absurd h (by decide)
    · by_cases hsp : c = ' '
      · rw [poOK, if_neg hF, if_pos hsp] at h
        rw [poOK, if_neg hF, if_pos hsp]
        exact ih h
      · rw [poOK, if_neg hF, if_neg hsp] at h
        rw [poOK, if_neg hF, if_neg hsp]
        exact h

theorem poOK_suffix {x y : List Char} (h : poOK false (x ++ y) = true) :
    poOK false y = true := by
  rw [poOK_append] at h
  have h2 := (Bool.and_eq_true_iff.mp h).2
  cases hst : (poScan false x).2 with
  | false => rw [hst] at h2; exact h2
  | true => rw [hst] at h2; exact poOK_mono h2

theorem countF_cons (c : Char) (l : List Char) :
    countF (c :: l) = countF l + (if isFillerChar c then 1 else 0) := by
  by_cases h : isFillerChar c = true
  · simp only [countF, List.filter_cons, h, if_pos, List.length_cons]
  · simp only [countF, List.filter_cons, h, Bool.false_eq_true, if_neg,
      not_false_iff]
    simp [h]

theorem countF_reverse (l : List Char) : countF l.reverse = countF l := by
  simp [countF, List.filter_reverse]

theorem poScan_no_filler :
    ∀ {x : List Char}, (∀ c ∈ x, isFillerChar c = false) →
      ∀ s, (poScan s x).1 = true := by
  intro x
  induction x with
  | nil => intro _ s; rfl
  | cons c cs ih =>
    intro h s
    have hc : isFillerChar c = false := h c (List.mem_cons_self _ _)
    have ht := fun s2 => ih (fun a ha => h a (List.mem_cons_of_mem _ ha)) s2
    by_cases hsp : c = ' '
    · rw [poScan, if_neg (by simp [hc]), if_pos hsp]
      exact ht s
    · rw [poScan, if_neg (by simp [hc]), if_neg hsp]
      exact ht false

theorem countF_eq_zero_no_filler {x : List Char} (h : countF x = 0) :
    ∀ c ∈ x, isFillerChar c = false := by
  intro c hc
  by_cases hf : isFillerChar c = true
  · exfalso
    have hmem : c ∈ x.filter isFillerChar := List.mem_filter.mpr ⟨hc, hf⟩
    have hne : x.filter isFillerChar ≠ [] := by
      intro he
      rw [he] at hmem
      exact absurd hmem (List.not_mem_nil c)
    have hlen : 0 < (x.filter isFillerChar).length := List.length_pos.mpr hne
    have : countF x = (x.filter isFillerChar).length := rfl
    omega
  · simpa using hf

theorem poScan_single_filler :
    ∀ {x : List Char}, countF x ≤ 1 → (poScan false x).1 = true := by
  intro x
  induction x with
  | nil => intro _; rfl
  | cons c cs ih =>
    intro h
    rw [countF_cons] at h
    by_cases hF : isFillerChar c = true
    · have hcs : countF cs = 0 := by
        rw [hF] at h
        simp at h
        omega
      rw [poScan, if_pos hF, if_neg (by simp)]
      exact poScan_no_filler (countF_eq_zero_no_filler hcs) true
    · have hF' : isFillerChar c = false := by simpa using hF
      have hcs : countF cs ≤ 1 := by rw [hF'] at h; simpa using h
      by_cases hsp : c = ' '
      · rw [poScan, if_neg (by simp [hF']), if_pos hsp]
        exact ih hcs
      · rw [poScan, if_neg (by simp [hF']), if_neg hsp]
        exact ih hcs

theorem isPORun_split {c : Char} (h : isPORun c = false) :
    isFillerChar c = false ∧ ¬(c = ' ') := by
  simp only [isPORun, Bool.or_eq_false_iff, decide_eq_false_iff_not] at h
  exact h

theorem poOK_poAux :
    ∀ (l pend : List Char) (fc : Nat),
      pend.all isPORun = true → fc = countF pend →
      poOK false (poAux l pend fc) = true := by
  intro l
  induction l with
  | nil =>
    intro pend fc _ hfc
    by_cases h2 : 2 ≤ fc
    · simp only [poAux, poFlush, h2, if_pos]
      decide
    · simp only [poAux, poFlush, h2, if_neg, not_false_iff]
      rw [poOK_eq_scan]
      refine poScan_single_filler ?_
      rw [countF_reverse, ← hfc]
      omega
  | cons c cs ih =>
    intro pend fc hall hfc
    by_cases hR : isPORun c = true
    · simp only [poAux, hR, if_pos]
      refine ih (c :: pend) _ (by simp [hR, hall]) ?_
      rw [countF_cons, hfc]
    · obtain ⟨hF, hsp⟩ := isPORun_split (by simpa using hR)
      simp only [poAux, hR, Bool.false_eq_true, if_neg, not_false_iff]
      rw [poOK_append, Bool.and_eq_true_iff]
      constructor
      · by_cases h2 : 2 ≤ fc
        · simp only [poFlush, h2, if_pos]
          decide
        · simp only [poFlush, h2, if_neg, not_false_iff]
          refine poScan_single_filler ?_
          rw [countF_reverse, ← hfc]
          omega
      · rw [poOK, if_neg (by simp [hF]), if_neg hsp]
        exact ih [] 0 rfl rfl

theorem poAux_id :
    ∀ (l pend : List Char) (fc : Nat),
      pend.all isPORun = true → fc = countF pend → fc ≤ 1 →
      poOK (decide (0 < fc)) l = true →
      poAux l pend fc = pend.reverse ++ l := by
  intro l
  induction l with
  | nil =>
    intro pend fc _ _ hle _
    simp only [poAux, poFlush, List.append_nil]
    rw [if_neg (by omega)]
  | cons c cs ih =>
    intro pend fc hall hfc hle h
    by_cases hR : isPORun c = true
    · by_cases hF : isFillerChar c = true
      · rw [poOK, if_pos hF] at h
        have hfc0 : fc = 0 := by
          by_contra hne
          have : decide (0 < fc) = true := by
            simp only [decide_eq_true_iff]
            omega
          rw [this, if_pos rfl] at h
          exact absurd h (by decide)
        subst hfc0
        rw [if_neg (by simp)] at h
        simp only [poAux, hR, if_pos, hF, if_pos]
        rw [ih (c :: pend) (0 + 1) (by simp [hR, hall])
          (by rw [countF_cons, hF, ← hfc]; simp) (by omega) (by simpa using h)]
        simp
      · have hsp : c = ' ' := by
          rcases (by simpa [isPORun] using hR : isFillerChar c = true ∨ c = ' ')
            with h1 | h1
          · exact absurd h1 (by simpa using hF)
          · exact h1
        rw [poOK, if_neg (by simp [hF]), if_pos hsp] at h
        simp only [poAux, hR, if_pos, hF, Bool.false_eq_true, if_neg,
          not_false_iff]
        rw [Nat.add_zero]
        rw [ih (c :: pend) fc (by simp [hR, hall])
          (by rw [countF_cons, ← hfc]; simp [hF]) hle h]
        simp
    · obtain ⟨hF, hsp⟩ := isPORun_split (by simpa using hR)
      rw [poOK, if_neg (by simp [hF]), if_neg hsp] at h
      simp only [poAux, hR, Bool.false_eq_true, if_neg, not_false_iff]
      rw [poFlush, if_neg (by omega)]
      rw [ih [] 0 rfl rfl (by omega) (by simpa using h)]
      simp

theorem mem_poAux :
    ∀ (l pend : List Char) (fc : Nat) (c' : Char),
      c' ∈ poAux l pend fc → c' = ' ' ∨ c' ∈ pend ∨ c' ∈ l := by
  intro l
  induction l with
  | nil =>
    intro pend fc c' h
    simp only [poAux, poFlush] at h
    split at h
    · simp at h
      exact Or.inl h
    · rw [List.mem_reverse] at h
      exact Or.inr (Or.inl h)
  | cons c cs ih =>
    intro pend fc c' h
    by_cases hR : isPORun c = true
    · simp only [poAux, hR, if_pos] at h
      rcases ih (c :: pend) _ c' h with h1 | h1 | h1
      · exact Or.inl h1
      · rcases List.mem_cons.mp h1 with rfl | h2
        · exact Or.inr (Or.inr (List.mem_cons_self _ _))
        · exact Or.inr (Or.inl h2)
      · exact Or.inr (Or.inr (List.mem_cons_of_mem _ h1))
    · simp only [poAux, hR, Bool.false_eq_true, if_neg, not_false_iff,
        List.mem_append, List.mem_cons] at h
      rcases h with h1 | h1 | h1
      · simp only [poFlush] at h1
        split at h1
        · simp at h1
          exact Or.inl h1
        · rw [List.mem_reverse] at h1
          exact Or.inr (Or.inl h1)
      · subst h1
        exact Or.inr (Or.inr (List.mem_cons_self _ _))
      · rcases ih [] 0 c' h1 with h2 | h2 | h2
        · exact Or.inl h2
        · simp at h2
        · exact Or.inr (Or.inr (List.mem_cons_of_mem _ h2))

theorem chainOK_poAux {p : Char → Bool} :
    ∀ (l pend : List Char) (fc : Nat) (o : Option Char),
      pend.all isPORun = true →
      (p ' ' = false ∨ ((∀ c', isPORun c' = false → p c' = false) ∧
        (∀ a, o = some a → p a = false))) →
      chainOK p o (pend.reverse ++ l) = true →
      chainOK p o (poAux l pend fc) = true := by
  intro l
  induction l with
  | nil =>
    intro pend fc o hall hdis h
    simp only [poAux, poFlush]
    split
    · rcases hdis with hsp | ⟨_, ho⟩
      · refine chainOK_all_false ?_ o
        intro a ha
        simp only [List.mem_singleton] at ha
        subst ha
        exact hsp
      · cases o with
        | none => rfl
        | some a =>
          have hpa := ho a rfl
          simp [chainOK, hpa]
    · simpa using h
  | cons c cs ih =>
    intro pend fc o hall hdis h
    by_cases hR : isPORun c = true
    · simp only [poAux, hR, if_pos]
      refine ih (c :: pend) _ o (by simp [hR, hall]) hdis ?_
      rw [List.reverse_cons, List.append_assoc]
      simpa using h
    · have hR' : isPORun c = false := by simpa using hR
      have hpc : p c = false ∨ p ' ' = false := by
        rcases hdis with hsp | ⟨hnr, _⟩
        · exact Or.inr hsp
        · exact Or.inl (hnr c hR')
      have htail : chainOK p (some c) (poAux cs [] 0) = true := by
        refine ih [] 0 (some c) rfl ?_ ?_
        · rcases hdis with hsp | ⟨hnr, _⟩
          · exact Or.inl hsp
          · refine Or.inr ⟨hnr, ?_⟩
            intro a ha
            injection ha with ha
            subst ha
            exact hnr c hR'
        · have h2 : chainOK p none (c :: cs) = true :=
            chainOK_elim_right (x := pend.reverse) h
          simpa using chainOK_cons_elim h2
      simp only [poAux, hR, Bool.false_eq_true, if_neg, not_false_iff]
      by_cases h2 : 2 ≤ fc
      · simp only [poFlush, h2, if_pos]
        rcases hdis with hsp | ⟨hnr, ho⟩
        · exact chainOK_append_safe (by simp)
            (by intro a ha; simp at ha; subst ha; exact hsp)
            (by simpa using htail) o
        · have hpc' : p c = false := hnr c hR'
          cases o with
          | none =>
            simp only [List.singleton_append, chainOK, hpc', Bool.and_false,
              Bool.not_false, Bool.true_and]
            exact htail
          | some a =>
            simp only [List.singleton_append, chainOK, ho a rfl,
              Bool.false_and, Bool.not_false, Bool.true_and, hpc',
              Bool.and_false]
            exact htail
      · simp only [poFlush, h2, if_neg, not_false_iff]
        exact chainOK_replace_tail h htail

/-! ### The doubled-token scanner and `remove_word_with_duplicate_letters` -/

theorem squashEqRuns_subset :
    ∀ {t : List Char} {c : Char}, c ∈ squashEqRuns t → c ∈ t := by
  intro t
  induction t with
  | nil => intro c h; simp [squashEqRuns] at h
  | cons a r ih =>
    intro c h
    cases r with
    | nil => simpa [squashEqRuns] using h
    | cons b r' =>
      by_cases hab : (a == b) = true
      · simp only [squashEqRuns, hab, if_pos] at h
        exact List.mem_cons_of_mem _ (ih h)
      · simp only [squashEqRuns, hab, Bool.false_eq_true, if_neg,
          not_false_iff] at h
        rcases List.mem_cons.mp h with rfl | h2
        · exact List.mem_cons_self _ _
        · exact List.mem_cons_of_mem _ (ih h2)

theorem squashEqRuns_head :
    ∀ (r : List Char) (b : Char),
      (squashEqRuns (b :: r)).head? = some b := by
  intro r
  induction r with
  | nil => intro b; rfl
  | cons c r' ih =>
    intro b
    by_cases hbc : (b == c) = true
    · rw [squashEqRuns, if_pos hbc]
      have : b = c := by simpa using hbc
      rw [this]
      exact ih c
    · rw [squashEqRuns, if_neg (by simpa using hbc)]
      rfl

theorem squashEqRuns_ne_nil {t : List Char} (h : t ≠ []) :
    squashEqRuns t ≠ [] := by
  cases t with
  | nil => exact absurd rfl h
  | cons b r =>
    intro he
    have := squashEqRuns_head r b
    rw [he] at this
    exact Option.noConfusion this

theorem noAdjE_squashEqRuns :
    ∀ (t : List Char) (a b : Char) (rest : List Char),
      squashEqRuns t = a :: b :: rest → a ≠ b := by
  intro t
  induction t with
  | nil => intro a b rest h; simp [squashEqRuns] at h
  | cons x r ih =>
    intro a b rest h
    cases r with
    | nil => simp [squashEqRuns] at h
    | cons y r' =>
      by_cases hxy : (x == y) = true
      · rw [squashEqRuns, if_pos hxy] at h
        exact ih a b rest h
      · rw [squashEqRuns, if_neg (by simpa using hxy)] at h
        injection h with h1 h2
        subst h1
        have hh := squashEqRuns_head r' y
        rw [h2] at hh
        injection hh with h3
        subst h3
        simpa using hxy

theorem fullyDoubled_squashEqRuns (t : List Char) :
    fullyDoubled (squashEqRuns t) = false := by
  cases hs : squashEqRuns t with
  | nil => rfl
  | cons a r =>
    cases r with
    | nil => simp [fullyDoubled, pairsEq]
    | cons b rest =>
      have hne : a ≠ b := noAdjE_squashEqRuns t a b rest hs
      simp [fullyDoubled, pairsEq, hne]

theorem dwFlush_not_fd (buf : List Char) :
    fullyDoubled (dwFlush buf) = false := by
  simp only [dwFlush]
  split
  · exact fullyDoubled_squashEqRuns _
  · next h => simpa using h

theorem dwFlush_subset {buf : List Char} {c : Char} (h : c ∈ dwFlush buf) :
    c ∈ buf := by
  simp only [dwFlush] at h
  split at h
  · exact List.mem_reverse.mp (squashEqRuns_subset h)
  · exact List.mem_reverse.mp h

theorem dwFlush_ne_nil {buf : List Char} (h : buf ≠ []) :
    dwFlush buf ≠ [] := by
  simp only [dwFlush]
  split
  · exact squashEqRuns_ne_nil (by simpa using h)
  · simpa using h

theorem dwOK_append (x : List Char) :
    ∀ (buf : List Char) (y : List Char),
      dwOK buf (x ++ y) = ((dwScan buf x).1 && dwOK (dwScan buf x).2 y) := by
  induction x with
  | nil => intro buf y; simp [dwScan]
  | cons c cs ih =>
    intro buf y
    by_cases hws : isPyWS c = true
    · simp only [List.cons_append, dwOK, dwScan, hws, if_pos,
        List.append_eq, ih, Bool.and_assoc]
    · simp only [List.cons_append, dwOK, dwScan, hws, Bool.false_eq_true,
        if_neg, not_false_iff, List.append_eq, ih]

theorem dwOK_wsfree :
    ∀ {x : List Char}, (∀ c ∈ x, isPyWS c = false) →
      ∀ b, dwOK b x = !(fullyDoubled (b.reverse ++ x)) := by
  intro x
  induction x with
  | nil => intro _ b; simp [dwOK]
  | cons c cs ih =>
    intro h b
    have hc : isPyWS c = false := h c (List.mem_cons_self _ _)
    rw [dwOK, if_neg (by simp [hc]),
      ih (fun a ha => h a (List.mem_cons_of_mem _ ha)) (c :: b)]
    simp

theorem dwScan_wsfree :
    ∀ {x : List Char}, (∀ c ∈ x, isPyWS c = false) →
      ∀ b, dwScan b x = (true, x.reverse ++ b) := by
  intro x
  induction x with
  | nil => intro _ b; simp [dwScan]
  | cons c cs ih =>
    intro h b
    have hc : isPyWS c = false := h c (List.mem_cons_self _ _)
    rw [dwScan, if_neg (by simp [hc]),
      ih (fun a ha => h a (List.mem_cons_of_mem _ ha)) (c :: b)]
    simp

theorem dwAux_est :
    ∀ (l buf : List Char), (∀ c ∈ buf, isPyWS c = false) →
      dwOK [] (dwAux l buf) = true := by
  intro l
  induction l with
  | nil =>
    intro buf hbuf
    simp only [dwAux]
    rw [dwOK_wsfree (fun c hc => hbuf c (dwFlush_subset hc)) []]
    simp [dwFlush_not_fd]
  | cons c cs ih =>
    intro buf hbuf
    by_cases hws : isPyWS c = true
    · simp only [dwAux, hws, if_pos]
      rw [dwOK_append,
        dwScan_wsfree (fun a ha => hbuf a (dwFlush_subset ha)) []]
      simp only [List.append_nil, dwOK, hws, if_pos, List.reverse_reverse]
      rw [Bool.and_eq_true_iff]
      constructor
      · rfl
      · rw [Bool.and_eq_true_iff]
        exact ⟨by simp [dwFlush_not_fd], ih [] (by intro a ha; simp at ha)⟩
    · have hws' : isPyWS c = false := by simpa using hws
      simp only [dwAux, hws', Bool.false_eq_true, if_neg, not_false_iff]
      refine ih (c :: buf) ?_
      intro a ha
      rcases List.mem_cons.mp ha with rfl | h2
      · exact hws'
      · exact hbuf a h2

theorem dwAux_id :
    ∀ (l buf : List Char), dwOK buf l = true →
      dwAux l buf = buf.reverse ++ l := by
  intro l
  induction l with
  | nil =>
    intro buf h
    simp only [dwOK] at h
    simp only [dwAux, dwFlush]
    rw [if_neg (by simpa using h)]
    simp
  | cons c cs ih =>
    intro buf h
    by_cases hws : isPyWS c = true
    · rw [dwOK, if_pos hws, Bool.and_eq_true_iff] at h
      simp only [dwAux, hws, if_pos]
      rw [dwFlush, if_neg (by simpa using h.1), ih [] (by simpa using h.2)]
      simp
    · rw [dwOK, if_neg hws] at h
      simp only [dwAux, hws, Bool.false_eq_true, if_neg, not_false_iff]
      rw [ih (c :: buf) h]
      simp

theorem chainOK_dwAux {p : Char → Bool}
    (hp : ∀ c, p c = true → isPyWS c = true) :
    ∀ (l buf : List Char) (o : Option Char),
      (∀ c ∈ buf, isPyWS c = false) →
      chainOK p o (buf.reverse ++ l) = true →
      chainOK p o (dwAux l buf) = true := by
  intro l
  induction l with
  | nil =>
    intro buf o hbuf _
    simp only [dwAux]
    refine chainOK_all_false ?_ o
    intro a ha
    have := hbuf a (dwFlush_subset ha)
    by_cases hpa : p a = true
    · exact absurd (hp a hpa) (by simp [this])
    · simpa using hpa
  | cons c cs ih =>
    intro buf o hbuf h
    by_cases hws : isPyWS c = true
    · simp only [dwAux, hws, if_pos]
      have htail : chainOK p (some c) (dwAux cs []) = true := by
        refine ih [] (some c) (by intro a ha; simp at ha) ?_
        have h2 : chainOK p none (c :: cs) = true :=
          chainOK_elim_right (x := buf.reverse) h
        simpa using chainOK_cons_elim h2
      cases hbe : buf with
      | nil =>
        have hfl : dwFlush ([] : List Char) = [] := rfl
        rw [hfl, List.nil_append]
        subst hbe
        exact chainOK_replace_tail (x := [])
          (show chainOK p o ([] ++ c :: cs) = true by simpa using h) htail
      | cons b bs =>
        rw [← hbe]
        refine chainOK_append_safe (dwFlush_ne_nil (by simp [hbe])) ?_
          (by simpa using htail) o
        intro a ha
        have hnws := hbuf a (dwFlush_subset ha)
        by_cases hpa : p a = true
        · exact absurd (hp a hpa) (by simp [hnws])
        · simpa using hpa
    · have hws' : isPyWS c = false := by simpa using hws
      simp only [dwAux, hws', Bool.false_eq_true, if_neg, not_false_iff]
      refine ih (c :: buf) o ?_ ?_
      · intro a ha
        rcases List.mem_cons.mp ha with rfl | h2
        · exact hws'
        · exact hbuf a h2
      · rw [List.reverse_cons, List.append_assoc]
        simpa using h

theorem ws_not_filler {c : Char} (h : isPyWS c = true) :
    isFillerChar c = false := by
  simp [isFillerChar, h]

theorem pairsEq_no_filler :
    ∀ (n : Nat) (t : List Char), t.length ≤ n → pairsEq t = true →
      ∀ s : Bool, (poScan s t).1 = true → ∀ c ∈ t, isFillerChar c = false := by
  intro n
  induction n with
  | zero =>
    intro t hlen hpe s hscan c hc
    have : t = [] := List.length_eq_zero.mp (Nat.le_zero.mp hlen)
    subst this
    simp at hc
  | succ n ih =>
    intro t hlen hpe s hscan c hc
    cases t with
    | nil => simp at hc
    | cons a t1 =>
      cases t1 with
      | nil => simp [pairsEq] at hpe
      | cons b t' =>
        rw [pairsEq, Bool.and_eq_true_iff] at hpe
        have hab : a = b := by simpa using hpe.1
        subst hab
        have hFa : isFillerChar a = false := by
          by_cases hF : isFillerChar a = true
          · exfalso
            rw [poScan, if_pos hF] at hscan
            by_cases hs : s = true
            · rw [if_pos hs] at hscan
              exact absurd hscan (by decide)
            · rw [if_neg hs, poScan, if_pos hF, if_pos rfl] at hscan
              exact absurd hscan (by decide)
          · simpa using hF
        have hscan' : ∃ s2, (poScan s2 t').1 = true := by
          rw [poScan, if_neg (by simp [hFa])] at hscan
          by_cases hsp : a = ' '
          · rw [if_pos hsp, poScan, if_neg (by simp [hFa]), if_pos hsp]
              at hscan
            exact ⟨s, hscan⟩
          · rw [if_neg hsp, poScan, if_neg (by simp [hFa]), if_neg hsp]
              at hscan
            exact ⟨false, hscan⟩
        rcases List.mem_cons.mp hc with rfl | hc1
        · exact hFa
        rcases List.mem_cons.mp hc1 with rfl | hc2
        · exact hFa
        · obtain ⟨s2, hs2⟩ := hscan'
          refine ih t' ?_ hpe.2 s2 hs2 c hc2
          simp only [List.length_cons] at hlen
          omega

theorem poScan_reset :
    ∀ (x : List Char), x ≠ [] →
      (∀ c ∈ x, isFillerChar c = false ∧ ¬(c = ' ')) →
      ∀ s, poScan s x = (true, false) := by
  intro x
  induction x with
  | nil => intro h; exact absurd rfl h
  | cons a rest ih =>
    intro _ hall s
    obtain ⟨hF, hsp⟩ := hall a (List.mem_cons_self _ _)
    rw [poScan, if_neg (by simp [hF]), if_neg hsp]
    cases rest with
    | nil => rfl
    | cons b r2 =>
      exact ih (by simp) (fun c hc => hall c (List.mem_cons_of_mem _ hc))
        false

theorem fullyDoubled_parts {t : List Char} (h : fullyDoubled t = true) :
    t ≠ [] ∧ pairsEq t = true := by
  rw [fullyDoubled, Bool.and_eq_true_iff] at h
  exact ⟨by simpa using h.1, h.2⟩

theorem poOK_dwAux :
    ∀ (l buf : List Char) (s : Bool),
      (∀ c ∈ buf, isPyWS c = false) →
      poOK s (buf.reverse ++ l) = true →
      poOK s (dwAux l buf) = true := by
  intro l
  induction l with
  | nil =>
    intro buf s hbuf h
    rw [List.append_nil] at h
    simp only [dwAux, dwFlush]
    split
    · next hfd =>
      obtain ⟨hne, hpe⟩ := fullyDoubled_parts hfd
      have hscan : (poScan s buf.reverse).1 = true := by
        rw [← poOK_eq_scan]
        exact h
      have hFfree := pairsEq_no_filler buf.reverse.length buf.reverse
        (le_refl _) hpe s hscan
      rw [poOK_eq_scan]
      refine poScan_no_filler ?_ s
      intro c hc
      exact hFfree c (squashEqRuns_subset hc)
    · exact h
  | cons c cs ih =>
    intro buf s hbuf h
    by_cases hws : isPyWS c = true
    · simp only [dwAux, hws, if_pos]
      rw [poOK_append] at h ⊢
      rw [Bool.and_eq_true_iff] at h
      obtain ⟨h1, h2⟩ := h
      have hA : (poScan s (dwFlush buf)).1 = true ∧
          (poScan s (dwFlush buf)).2 = (poScan s buf.reverse).2 := by
        simp only [dwFlush]
        split
        · next hfd =>
          obtain ⟨hne, hpe⟩ := fullyDoubled_parts hfd
          have hcond : ∀ a ∈ buf.reverse, isFillerChar a = false ∧
              ¬(a = ' ') := by
            intro a ha
            refine ⟨pairsEq_no_filler buf.reverse.length buf.reverse
              (le_refl _) hpe s h1 a ha, ?_⟩
            intro he
            subst he
            have := hbuf ' ' (List.mem_reverse.mp ha)
            exact absurd this (by decide)
          have hcond2 : ∀ a ∈ squashEqRuns buf.reverse,
              isFillerChar a = false ∧ ¬(a = ' ') :=
            fun a ha => hcond a (squashEqRuns_subset ha)
          rw [poScan_reset _ (squashEqRuns_ne_nil hne) hcond2 s,
            poScan_reset _ hne hcond s]
          exact ⟨rfl, rfl⟩
        · exact ⟨h1, rfl⟩
      rw [Bool.and_eq_true_iff]
      refine ⟨hA.1, ?_⟩
      rw [hA.2]
      have hFc : isFillerChar c = false := ws_not_filler hws
      rw [poOK, if_neg (by simp [hFc])] at h2 ⊢
      by_cases hsp : c = ' '
      · rw [if_pos hsp] at h2 ⊢
        exact ih [] _ (by intro a ha; simp at ha) (by simpa using h2)
      · rw [if_neg hsp] at h2 ⊢
        exact ih [] _ (by intro a ha; simp at ha) (by simpa using h2)
    · have hws' : isPyWS c = false := by simpa using hws
      simp only [dwAux, hws', Bool.false_eq_true, if_neg, not_false_iff]
      refine ih (c :: buf) s ?_ ?_
      · intro a ha
        rcases List.mem_cons.mp ha with rfl | h2
        · exact hws'
        · exact hbuf a h2
      · rw [List.reverse_cons, List.append_assoc]
        simpa using h

theorem mem_dwAux :
    ∀ (l buf : List Char) (c' : Char),
      c' ∈ dwAux l buf → c' ∈ buf ∨ c' ∈ l := by
  intro l
  induction l with
  | nil =>
    intro buf c' h
    simp only [dwAux] at h
    exact Or.inl (dwFlush_subset h)
  | cons c cs ih =>
    intro buf c' h
    by_cases hws : isPyWS c = true
    · simp only [dwAux, hws, if_pos, List.mem_append, List.mem_cons] at h
      rcases h with h1 | h1 | h1
      · exact Or.inl (dwFlush_subset h1)
      · subst h1
        exact Or.inr (List.mem_cons_self _ _)
      · rcases ih [] c' h1 with h2 | h2
        · simp at h2
        · exact Or.inr (List.mem_cons_of_mem _ h2)
    · simp only [dwAux, hws, Bool.false_eq_true, if_neg, not_false_iff] at h
      rcases ih (c :: buf) c' h with h2 | h2
      · rcases List.mem_cons.mp h2 with rfl | h3
        · exact Or.inr (List.mem_cons_self _ _)
        · exact Or.inl h3
      · exact Or.inr (List.mem_cons_of_mem _ h2)

theorem joinLines_cons_cons (x y : List Char) (t : List (List Char)) :
    joinLines (x :: y :: t) = x ++ '\n' :: joinLines (y :: t) := by
  simp [joinLines, List.intercalate, List.intersperse]

theorem getLast?_mem_of_eq {x : List Char} {a : Char}
    (h : x.getLast? = some a) : a ∈ x := by
  induction x with
  | nil => simp at h
  | cons c x' ih =>
    cases x' with
    | nil =>
      have : c = a := by simpa using h
      simp [this]
    | cons d t =>
      rw [List.getLast?_cons_cons] at h
      exact List.mem_cons_of_mem _ (ih h)

theorem lastState_cons (o : Option Char) (c : Char) (x : List Char) :
    lastState o (c :: x) = lastState (some c) x := by
  cases x with
  | nil => simp [lastState]
  | cons d x' =>
    unfold lastState
    rw [List.getLast?_cons_cons]
    cases hg : (d :: x').getLast? with
    | none => simp [List.getLast?_eq_none_iff] at hg
    | some e => rfl

theorem lastState_mem {o : Option Char} {x : List Char} {a : Char}
    (h : lastState o x = some a) : o = some a ∨ a ∈ x := by
  unfold lastState at h
  cases hg : x.getLast? with
  | none => rw [hg] at h; exact Or.inl h
  | some c =>
    rw [hg] at h
    refine Or.inr ?_
    have hc : a = c := by simpa using h.symm
    subst hc
    exact getLast?_mem_of_eq hg

theorem chainOK_free_append {p : Char → Bool} :
    ∀ (a : List Char), (∀ c ∈ a, p c = false) →
      ∀ (o : Option Char) (r : List Char),
      chainOK p o (a ++ r) = chainOK p (lastState o a) r := by
  intro a
  induction a with
  | nil => intro _ o r; simp [lastState]
  | cons c a' ih =>
    intro h o r
    have hc : p c = false := h c (List.mem_cons_self _ _)
    rw [lastState_cons]
    cases o with
    | none =>
      simp only [List.cons_append, chainOK]
      exact ih (fun d hd => h d (List.mem_cons_of_mem _ hd)) (some c) r
    | some b =>
      simp only [List.cons_append, chainOK, hc, Bool.and_false,
        Bool.not_false, Bool.true_and]
      exact ih (fun d hd => h d (List.mem_cons_of_mem _ hd)) (some c) r

theorem chainOK_elim_left {p : Char → Bool} :
    ∀ {x : List Char} {o : Option Char} {y : List Char},
      chainOK p o (x ++ y) = true → chainOK p o x = true := by
  intro x
  induction x with
  | nil => intro o y _; cases o <;> rfl
  | cons c cs ih =>
    intro o y h
    cases o with
    | none =>
      simp only [List.cons_append, chainOK] at h ⊢
      exact ih h
    | some a =>
      simp only [List.cons_append, chainOK, Bool.and_eq_true] at h ⊢
      exact ⟨h.1, ih h.2⟩

theorem chainOK_append_chain {p : Char → Bool} :
    ∀ (x : List Char) (o : Option Char) (y : List Char),
      chainOK p o x = true → chainOK p (lastState o x) y = true →
      chainOK p o (x ++ y) = true := by
  intro x
  induction x with
  | nil => intro o y _ h2; simpa [lastState] using h2
  | cons c cs ih =>
    intro o y h1 h2
    rw [lastState_cons] at h2
    cases o with
    | none =>
      simp only [chainOK] at h1
      simp only [List.cons_append, chainOK]
      exact ih (some c) y h1 h2
    | some a =>
      simp only [chainOK, Bool.and_eq_true] at h1
      simp only [List.cons_append, chainOK, Bool.and_eq_true]
      exact ⟨h1.1, ih (some c) y h1.2 h2⟩

theorem chainOK_head_false {p : Char → Bool} {c : Char} {cs : List Char}
    (hc : p c = false) (h : chainOK p none (c :: cs) = true)
    (o : Option Char) : chainOK p o (c :: cs) = true := by
  cases o with
  | none => exact h
  | some a =>
    simp only [chainOK] at h
    simp only [chainOK, hc, Bool.and_false, Bool.not_false, Bool.true_and]
    exact h

theorem splitOnChar_ne_nil (sep : Char) :
    ∀ (l buf : List Char), splitOnChar sep l buf ≠ [] := by
  intro l
  induction l with
  | nil => intro buf; simp [splitOnChar]
  | cons c cs ih =>
    intro buf
    by_cases hc : c = sep
    · simp [splitOnChar, hc]
    · simp only [splitOnChar, hc, if_neg, not_false_iff]
      exact ih (c :: buf)

theorem joinLines_splitOnChar :
    ∀ (l buf : List Char),
      joinLines (splitOnChar '\n' l buf) = buf.reverse ++ l := by
  intro l
  induction l with
  | nil => intro buf; simp [splitOnChar, joinLines_singleton]
  | cons c cs ih =>
    intro buf
    by_cases hc : c = '\n'
    · subst hc
      have h1 : splitOnChar '\n' ('\n' :: cs) buf =
          buf.reverse :: splitOnChar '\n' cs [] := by simp [splitOnChar]
      cases hK : splitOnChar '\n' cs [] with
      | nil => exact absurd hK (splitOnChar_ne_nil '\n' cs [])
      | cons k0 K =>
        rw [h1, hK, joinLines_cons_cons, ← hK, ih []]
        simp
    · have h1 : splitOnChar '\n' (c :: cs) buf =
          splitOnChar '\n' cs (c :: buf) := by simp [splitOnChar, hc]
      rw [h1, ih (c :: buf)]
      simp

theorem mem_splitOnChar (sep : Char) :
    ∀ (l buf x : List Char), x ∈ splitOnChar sep l buf →
      ∀ c ∈ x, c ∈ buf ∨ c ∈ l := by
  intro l
  induction l with
  | nil =>
    intro buf x hx c hc
    simp only [splitOnChar, List.mem_singleton] at hx
    subst hx
    exact Or.inl (List.mem_reverse.mp hc)
  | cons d cs ih =>
    intro buf x hx c hc
    by_cases hd : d = sep
    · simp only [splitOnChar, hd, if_pos, List.mem_cons] at hx
      rcases hx with rfl | hx2
      · exact Or.inl (List.mem_reverse.mp hc)
      · rcases ih [] x hx2 c hc with h2 | h2
        · simp at h2
        · exact Or.inr (List.mem_cons_of_mem _ h2)
    · simp only [splitOnChar, hd, Bool.false_eq_true, if_neg,
        not_false_iff] at hx
      rcases ih (d :: buf) x hx c hc with h2 | h2
      · rcases List.mem_cons.mp h2 with rfl | h3
        · exact Or.inr (List.mem_cons_self _ _)
        · exact Or.inl h3
      · exact Or.inr (List.mem_cons_of_mem _ h2)

theorem splitOnChar_nl_free :
    ∀ (l buf : List Char), (∀ c ∈ buf, ¬(c = '\n')) →
      ∀ x ∈ splitOnChar '\n' l buf, ∀ c ∈ x, ¬(c = '\n') := by
  intro l
  induction l with
  | nil =>
    intro buf hbuf x hx c hc
    simp only [splitOnChar, List.mem_singleton] at hx
    subst hx
    exact hbuf c (List.mem_reverse.mp hc)
  | cons d cs ih =>
    intro buf hbuf x hx c hc
    by_cases hd : d = '\n'
    · simp only [splitOnChar, hd, if_pos, List.mem_cons] at hx
      rcases hx with rfl | hx2
      · exact hbuf c (List.mem_reverse.mp hc)
      · exact ih [] (by intro a ha; simp at ha) x hx2 c hc
    · simp only [splitOnChar, hd, Bool.false_eq_true, if_neg,
        not_false_iff] at hx
      refine ih (d :: buf) ?_ x hx c hc
      intro a ha
      rcases List.mem_cons.mp ha with rfl | h3
      · exact hd
      · exact hbuf a h3

theorem split_append_sep :
    ∀ (a : List Char), (∀ c ∈ a, ¬(c = '\n')) → ∀ (rest buf : List Char),
      splitOnChar '\n' (a ++ '\n' :: rest) buf =
        (buf.reverse ++ a) :: splitOnChar '\n' rest [] := by
  intro a
  induction a with
  | nil => intro _ rest buf; simp [splitOnChar]
  | cons c a' ih =>
    intro h rest buf
    have hc : ¬(c = '\n') := h c (List.mem_cons_self _ _)
    simp only [List.cons_append, List.append_eq, splitOnChar, hc,
      Bool.false_eq_true, if_neg, not_false_iff]
    rw [ih (fun d hd => h d (List.mem_cons_of_mem _ hd)) rest (c :: buf)]
    simp

theorem splitOnChar_joinLines :
    ∀ (K : List (List Char)), K ≠ [] →
      (∀ x ∈ K, ∀ c ∈ x, ¬(c = '\n')) →
      splitOnChar '\n' (joinLines K) [] = K := by
  intro K
  induction K with
  | nil => intro h; exact absurd rfl h
  | cons a K' ih =>
    intro _ hnl
    cases K' with
    | nil =>
      rw [joinLines_singleton,
        splitOnChar_of_not_mem '\n' a [] (hnl a (List.mem_cons_self _ _))]
      simp
    | cons b t =>
      rw [joinLines_cons_cons,
        split_append_sep a (hnl a (List.mem_cons_self _ _)) _ [],
        ih (by simp) (fun x hx => hnl x (List.mem_cons_of_mem _ hx))]
      simp

theorem match_dot_suffix (r3 : List Char) :
    (match r3 with | '.' :: t => t | _ => r3) <:+ r3 := by
  split
  · exact List.suffix_cons _ _
  · exact List.suffix_refl _

theorem match_ord_suffix (r4 : List Char) :
    (match r4 with | 'º' :: t => t | _ => r4) <:+ r4 := by
  split
  · exact List.suffix_cons _ _
  · exact List.suffix_refl _

theorem stripBody_structure (r0 r : List Char) (h : stripBody r0 = some r) :
    r = [] ∨ ∃ x w, r0 = x ++ w :: r ∧ isPyWS w = true := by
  simp only [stripBody] at h
  split at h
  · exact absurd h (by simp)
  · split at h
    · left
      simpa using h.symm
    · next c tl heq =>
      have ha : (List.dropWhile isDigitChar (List.dropWhile isSpaceChar r0))
          <:+ r0 :=
        (List.dropWhile_suffix _).trans (List.dropWhile_suffix _)
      have hb := match_dot_suffix
        (List.dropWhile isDigitChar (List.dropWhile isSpaceChar r0))
      have hc2 := match_ord_suffix
        (match (List.dropWhile isDigitChar (List.dropWhile isSpaceChar r0))
          with
          | '.' :: t => t
          | _ => (List.dropWhile isDigitChar (List.dropWhile isSpaceChar r0)))
      rw [heq] at hc2
      have hsuf : (c :: tl) <:+ r0 := hc2.trans (hb.trans ha)
      split at h
      · next hws =>
        rw [heq] at h
        have hr : r = tl.dropWhile isPyWS := by
          rw [List.dropWhile_cons_of_pos hws] at h
          simpa using h.symm
        by_cases hrnil : r = []
        · exact Or.inl hrnil
        · right
          obtain ⟨u, hu⟩ := hsuf
          obtain ⟨T, hT⟩ : ∃ T, List.takeWhile isPyWS tl = T := ⟨_, rfl⟩
          have htl : tl = T ++ r := by
            rw [hr, ← hT]
            exact (List.takeWhile_append_dropWhile isPyWS tl).symm
          rcases List.eq_nil_or_concat (c :: T) with hN | hW
          · simp at hN
          · obtain ⟨W', w, hW0⟩ := hW
            have hW : c :: T = W' ++ [w] := by
              rw [hW0, List.concat_eq_append]
            refine ⟨u ++ W', w, ?_, ?_⟩
            · calc r0 = u ++ c :: tl := hu.symm
                _ = u ++ (c :: T) ++ r := by rw [htl]; simp
                _ = u ++ (W' ++ [w]) ++ r := by rw [hW]
                _ = (u ++ W') ++ w :: r := by simp
            · have hwmem : w ∈ c :: T := by
                rw [hW]; simp
              rcases List.mem_cons.mp hwmem with rfl | hmem
              · exact hws
              · exact List.mem_takeWhile_imp (by rw [hT]; exact hmem)
      · exact absurd h (by simp)

theorem stripBody_suffix {r0 r : List Char} (h : stripBody r0 = some r) :
    r <:+ r0 := by
  rcases stripBody_structure r0 r h with rfl | ⟨x, w, hx, _⟩
  · exact List.nil_suffix
  · exact ⟨x ++ [w], by simp [hx]⟩

theorem stripMarkerOnce_cases {l r : List Char}
    (h : stripMarkerOnce l = some r) :
    ∃ pre r0, (pre = ['A', 'r', 't', '.'] ∨ pre = ['§']) ∧ l = pre ++ r0 ∧
      stripBody r0 = some r := by
  unfold stripMarkerOnce at h
  split at h
  · exact ⟨['A', 'r', 't', '.'], _, Or.inl rfl, rfl, h⟩
  · exact ⟨['§'], _, Or.inr rfl, rfl, h⟩
  · exact absurd h (by simp)

theorem stripMarkerOnce_structure {l r : List Char}
    (h : stripMarkerOnce l = some r) :
    r = [] ∨ ∃ x w, l = x ++ w :: r ∧ isPyWS w = true := by
  obtain ⟨pre, r0, _, hl, hsb⟩ := stripMarkerOnce_cases h
  rcases stripBody_structure r0 r hsb with rfl | ⟨x, w, hx, hw⟩
  · exact Or.inl rfl
  · exact Or.inr ⟨pre ++ x, w, by rw [hl, hx, List.append_assoc], hw⟩

theorem stripMarkerOnce_length {l r : List Char}
    (h : stripMarkerOnce l = some r) : r.length < l.length := by
  obtain ⟨pre, r0, hpre, hl, hsb⟩ := stripMarkerOnce_cases h
  have h1 : r.length ≤ r0.length := (stripBody_suffix hsb).length_le
  have h2 : 1 ≤ pre.length := by
    rcases hpre with rfl | rfl <;> simp
  rw [hl, List.length_append]
  omega

theorem stripMarkerOnce_suffix {l r : List Char}
    (h : stripMarkerOnce l = some r) : r <:+ l := by
  rcases stripMarkerOnce_structure h with rfl | ⟨x, w, hx, _⟩
  · exact List.nil_suffix
  · exact ⟨x ++ [w], by simp [hx]⟩

theorem stripLineFuel_suffix : ∀ (fuel : Nat) (l : List Char),
    stripLineFuel fuel l <:+ l := by
  intro fuel
  induction fuel with
  | zero => intro l; exact List.suffix_refl _
  | succ n ih =>
    intro l
    cases hm : stripMarkerOnce l with
    | none => rw [stripLineFuel, hm]
    | some r =>
      rw [stripLineFuel, hm]
      exact (ih r).trans (stripMarkerOnce_suffix hm)

theorem stripLine_suffix (l : List Char) : stripLine l <:+ l :=
  stripLineFuel_suffix l.length l

theorem stripLineFuel_fix : ∀ (fuel : Nat) (l : List Char),
    l.length ≤ fuel → stripMarkerOnce (stripLineFuel fuel l) = none := by
  intro fuel
  induction fuel with
  | zero =>
    intro l hlen
    have : l = [] := List.length_eq_zero.mp (Nat.le_zero.mp hlen)
    subst this
    rfl
  | succ n ih =>
    intro l hlen
    cases hm : stripMarkerOnce l with
    | none => rw [stripLineFuel, hm]; exact hm
    | some r =>
      rw [stripLineFuel, hm]
      refine ih r ?_
      have := stripMarkerOnce_length hm
      omega

theorem stripLine_fix (l : List Char) :
    stripMarkerOnce (stripLine l) = none :=
  stripLineFuel_fix l.length l (le_refl _)

theorem stripLine_idem (l : List Char) :
    stripLine (stripLine l) = stripLine l := by
  rw [stripLine]
  exact stripLineFuel_of_none (stripLine_fix l) _

theorem processLines_cons (l : List Char) (L : List (List Char)) :
    processLines (l :: L) =
      if ((stripLine l).isEmpty && !l.isEmpty) = true then processLines L
      else stripLine l :: processLines L := by
  simp only [processLines, List.filterMap_cons]
  by_cases hc : ((stripLine l).isEmpty && !l.isEmpty) = true
  · rw [if_pos hc, if_pos hc]
  · rw [if_neg hc, if_neg hc]

theorem mem_processLines {K : List (List Char)} {x : List Char}
    (h : x ∈ processLines K) : ∃ l0, l0 ∈ K ∧ x = stripLine l0 := by
  simp only [processLines, List.mem_filterMap] at h
  obtain ⟨a, ha, hfa⟩ := h
  refine ⟨a, ha, ?_⟩
  by_cases hc : ((stripLine a).isEmpty && !a.isEmpty) = true
  · simp only [hc, if_true] at hfa
    exact absurd hfa (by simp)
  · simp only [hc, if_false] at hfa
    simpa using hfa.symm

theorem processLines_fix : ∀ (K : List (List Char)),
    (∀ x ∈ K, stripLine x = x) → processLines K = K := by
  intro K
  induction K with
  | nil => intro _; rfl
  | cons a T ih =>
    intro h
    have ha : stripLine a = a := h a (List.mem_cons_self _ _)
    rw [processLines_cons, ha]
    have hc : (a.isEmpty && !a.isEmpty) = false := by
      cases a.isEmpty <;> simp
    rw [if_neg (by simp [hc]), ih (fun x hx => h x (List.mem_cons_of_mem _ hx))]

theorem linesOK_eq_tailNE : ∀ (T : List (List Char)) (a : List Char),
    linesOK (a :: T) = tailNE T := by
  intro T
  induction T with
  | nil => intro a; rfl
  | cons b t ih =>
    intro a
    simp only [linesOK]
    rw [ih b]
    cases t with
    | nil => simp [tailNE]
    | cons c t' => simp [tailNE]

theorem tailNE_rest {x : List Char} {R : List (List Char)}
    (h : tailNE (x :: R) = true) : tailNE R = true := by
  cases R with
  | nil => rfl
  | cons r R' =>
    rw [tailNE, Bool.and_eq_true_iff] at h
    exact h.2

theorem tailNE_processLines : ∀ (K : List (List Char)),
    tailNE K = true → tailNE (processLines K) = true := by
  intro K
  induction K with
  | nil => intro _; rfl
  | cons a T ih =>
    intro h
    have hT : tailNE T = true := tailNE_rest h
    rw [processLines_cons]
    by_cases hc : ((stripLine a).isEmpty && !a.isEmpty) = true
    · rw [if_pos hc]
      exact ih hT
    · rw [if_neg hc]
      cases hP : processLines T with
      | nil => rfl
      | cons p t1 =>
        have hTne : T ≠ [] := by
          intro he
          rw [he] at hP
          simp [processLines] at hP
        obtain ⟨b, t, rfl⟩ : ∃ b t, T = b :: t := by
          cases T with
          | nil => exact absurd rfl hTne
          | cons b t => exact ⟨b, t, rfl⟩
        have hane : a.isEmpty = false := by
          rw [tailNE, Bool.and_eq_true_iff] at h
          simpa using h.1
        have hse : (stripLine a).isEmpty = false := by
          cases hse0 : (stripLine a).isEmpty with
          | false => rfl
          | true =>
            exfalso
            apply hc
            rw [hse0, hane]
            rfl
        rw [tailNE, Bool.and_eq_true_iff]
        constructor
        · simp [hse]
        · exact hP ▸ ih hT

theorem linesOK_processLines {K : List (List Char)}
    (h : linesOK K = true) : linesOK (processLines K) = true := by
  cases K with
  | nil => rfl
  | cons a T =>
    rw [linesOK_eq_tailNE] at h
    have hTP := tailNE_processLines T h
    rw [processLines_cons]
    by_cases hc : ((stripLine a).isEmpty && !a.isEmpty) = true
    · rw [if_pos hc]
      cases hP : processLines T with
      | nil => rfl
      | cons x R =>
        rw [linesOK_eq_tailNE]
        exact tailNE_rest (hP ▸ hTP)
    · rw [if_neg hc]
      rw [linesOK_eq_tailNE]
      exact hTP

theorem chainOK_nl_of_linesOK : ∀ (K : List (List Char)),
    (∀ x ∈ K, ∀ c ∈ x, ¬(c = '\n')) → linesOK K = true →
    chainOK isNLChar none (joinLines K) = true := by
  intro K
  induction K with
  | nil => intro _ _; rfl
  | cons a K' ih =>
    intro hnl hok
    have hnla : ∀ c ∈ a, isNLChar c = false := by
      intro c hc
      have := hnl a (List.mem_cons_self _ _) c hc
      simpa [isNLChar] using this
    cases K' with
    | nil =>
      rw [joinLines_singleton]
      exact chainOK_all_false hnla none
    | cons b t =>
      rw [joinLines_cons_cons, chainOK_free_append a hnla none]
      have hJn : chainOK isNLChar (some '\n') (joinLines (b :: t)) = true := by
        cases hb : b with
        | nil =>
          cases t with
          | nil =>
            rw [joinLines_singleton]
            rfl
          | cons t1 t' =>
            exfalso
            rw [hb] at hok
            simp [linesOK] at hok
        | cons c0 b' =>
          have hlok : linesOK (b :: t) = true := by
            rw [linesOK_eq_tailNE] at hok
            rw [linesOK_eq_tailNE]
            exact tailNE_rest hok
          have hIH : chainOK isNLChar none (joinLines (b :: t)) = true :=
            ih (fun x hx => hnl x (List.mem_cons_of_mem _ hx)) hlok
          rw [hb] at hIH
          obtain ⟨rest, hrest⟩ :
              ∃ rest, joinLines ((c0 :: b') :: t) = c0 :: rest := by
            cases t with
            | nil => exact ⟨b', by rw [joinLines_singleton]⟩
            | cons t1 t'' =>
              exact ⟨b' ++ '\n' :: joinLines (t1 :: t''),
                by rw [joinLines_cons_cons]; rfl⟩
          rw [hrest] at hIH ⊢
          refine chainOK_head_false ?_ hIH _
          have := hnl b (List.mem_cons_of_mem _ (List.mem_cons_self _ _))
          rw [hb] at this
          have hc0 := this c0 (List.mem_cons_self _ _)
          simpa [isNLChar] using hc0
      cases hls : lastState none a with
      | none =>
        simp only [chainOK]
        exact hJn
      | some b0 =>
        have hb0 : isNLChar b0 = false := by
          rcases lastState_mem hls with h0 | h0
          · exact absurd h0 (by simp)
          · exact hnla b0 h0
        simp only [chainOK, hb0, Bool.false_and, Bool.not_false, Bool.true_and]
        exact hJn

theorem linesOK_of_chainOK_nl : ∀ (K : List (List Char)),
    (∀ x ∈ K, ∀ c ∈ x, ¬(c = '\n')) →
    chainOK isNLChar none (joinLines K) = true → linesOK K = true := by
  intro K
  induction K with
  | nil => intro _ _; rfl
  | cons a K' ih =>
    intro hnl h
    cases K' with
    | nil => rfl
    | cons b t =>
      have hnla : ∀ c ∈ a, isNLChar c = false := by
        intro c hc
        have := hnl a (List.mem_cons_self _ _) c hc
        simpa [isNLChar] using this
      rw [joinLines_cons_cons, chainOK_free_append a hnla none] at h
      have hJn : chainOK isNLChar (some '\n') (joinLines (b :: t)) = true := by
        cases hls : lastState none a with
        | none =>
          rw [hls] at h
          simpa [chainOK] using h
        | some b0 =>
          rw [hls] at h
          simp only [chainOK, Bool.and_eq_true] at h
          exact h.2
      rw [linesOK_eq_tailNE]
      cases t with
      | nil => rfl
      | cons t1 t' =>
        have hbne : b ≠ [] := by
          intro hbe
          subst hbe
          rw [joinLines_cons_cons] at hJn
          simp only [List.nil_append] at hJn
          simp [chainOK, isNLChar] at hJn
        have ht : tailNE (t1 :: t') = true := by
          have hIH : linesOK (b :: t1 :: t') = true :=
            ih (fun x hx => hnl x (List.mem_cons_of_mem _ hx))
              (chainOK_none_of_any hJn)
          rw [linesOK_eq_tailNE] at hIH
          exact hIH
        rw [tailNE, Bool.and_eq_true_iff]
        refine ⟨?_, ht⟩
        cases hbe : b.isEmpty with
        | false => rfl
        | true => exact absurd (List.isEmpty_iff.mp hbe) hbne

theorem chainOK_split_lines {p : Char → Bool} (hnl : p '\n' = false) :
    ∀ (l buf : List Char) (o : Option Char),
      chainOK p o (buf.reverse ++ l) = true →
      ∀ x ∈ splitOnChar '\n' l buf, chainOK p none x = true := by
  intro l
  induction l with
  | nil =>
    intro buf o h x hx
    simp only [splitOnChar, List.mem_singleton] at hx
    subst hx
    rw [List.append_nil] at h
    exact chainOK_none_of_any h
  | cons c cs ih =>
    intro buf o h x hx
    by_cases hc : c = '\n'
    · subst hc
      simp only [splitOnChar, if_pos, List.mem_cons] at hx
      rcases hx with rfl | hx2
      · exact chainOK_none_of_any (chainOK_elim_left h)
      · refine ih [] (some '\n') ?_ x hx2
        have hre : buf.reverse ++ '\n' :: cs = (buf.reverse ++ ['\n']) ++ cs :=
          by simp
        rw [hre] at h
        have h2 := chainOK_elim_right h
        simpa using chainOK_some_of_false hnl h2
    · simp only [splitOnChar, hc, Bool.false_eq_true, if_neg,
        not_false_iff] at hx
      refine ih (c :: buf) o ?_ x hx
      have hre : (c :: buf).reverse ++ cs = buf.reverse ++ c :: cs := by simp
      rw [hre]
      exact h

theorem chainOK_joinLines {p : Char → Bool} (hnl : p '\n' = false) :
    ∀ (K : List (List Char)), (∀ x ∈ K, chainOK p none x = true) →
      chainOK p none (joinLines K) = true := by
  intro K
  induction K with
  | nil => intro _; rfl
  | cons a K' ih =>
    intro h
    cases K' with
    | nil =>
      rw [joinLines_singleton]
      exact h a (List.mem_cons_self _ _)
    | cons b t =>
      rw [joinLines_cons_cons]
      refine chainOK_append_chain a none _ (h a (List.mem_cons_self _ _)) ?_
      have hJ : chainOK p none (joinLines (b :: t)) = true :=
        ih (fun x hx => h x (List.mem_cons_of_mem _ hx))
      have hJn : chainOK p (some '\n') (joinLines (b :: t)) = true :=
        chainOK_some_of_false hnl hJ
      cases hls : lastState none a with
      | none =>
        simp only [chainOK]
        exact hJn
      | some b0 =>
        simp only [chainOK, hnl, Bool.and_false, Bool.not_false, Bool.true_and]
        exact hJn

theorem chainOK_stripLine {p : Char → Bool} {l : List Char}
    (h : chainOK p none l = true) : chainOK p none (stripLine l) = true := by
  obtain ⟨u, hu⟩ := stripLine_suffix l
  rw [← hu] at h
  exact chainOK_elim_right h

theorem chainOK_f6 {p : Char → Bool} (hnl : p '\n' = false) {l : List Char}
    (h : chainOK p none l = true) :
    chainOK p none
      (joinLines (processLines (splitOnChar '\n' l []))) = true := by
  refine chainOK_joinLines hnl _ ?_
  intro x hx
  obtain ⟨l0, hl0, rfl⟩ := mem_processLines hx
  refine chainOK_stripLine ?_
  exact chainOK_split_lines hnl l [] none (by simpa using h) l0 hl0

theorem chainOK_nl_f6 {l : List Char}
    (h : chainOK isNLChar none l = true) :
    chainOK isNLChar none
      (joinLines (processLines (splitOnChar '\n' l []))) = true := by
  have hnlK : ∀ x ∈ splitOnChar '\n' l [], ∀ c ∈ x, ¬(c = '\n') :=
    splitOnChar_nl_free l [] (by intro c hc; simp at hc)
  have hjoin : joinLines (splitOnChar '\n' l []) = l := by
    simpa using joinLines_splitOnChar l []
  have hlOK : linesOK (splitOnChar '\n' l []) = true := by
    refine linesOK_of_chainOK_nl _ hnlK ?_
    rw [hjoin]
    exact h
  have hnlK' : ∀ x ∈ processLines (splitOnChar '\n' l []),
      ∀ c ∈ x, ¬(c = '\n') := by
    intro x hx c hc
    obtain ⟨l0, hl0, rfl⟩ := mem_processLines hx
    obtain ⟨u, hu⟩ := stripLine_suffix l0
    exact hnlK l0 hl0 c (by rw [← hu]; exact List.mem_append_right u hc)
  exact chainOK_nl_of_linesOK _ hnlK' (linesOK_processLines hlOK)

theorem poOK_split_lines :
    ∀ (l buf : List Char), poOK false (buf.reverse ++ l) = true →
      ∀ x ∈ splitOnChar '\n' l buf, poOK false x = true := by
  intro l
  induction l with
  | nil =>
    intro buf h x hx
    simp only [splitOnChar, List.mem_singleton] at hx
    subst hx
    simpa using h
  | cons c cs ih =>
    intro buf h x hx
    by_cases hc : c = '\n'
    · subst hc
      rw [poOK_append, Bool.and_eq_true_iff] at h
      simp only [splitOnChar, if_pos, List.mem_cons] at hx
      rcases hx with rfl | hx2
      · rw [poOK_eq_scan]
        exact h.1
      · refine ih [] ?_ x hx2
        have h2 := h.2
        rw [poOK, if_neg (by decide), if_neg (by decide)] at h2
        simpa using h2
    · simp only [splitOnChar, hc, Bool.false_eq_true, if_neg,
        not_false_iff] at hx
      refine ih (c :: buf) ?_ x hx
      have hre : (c :: buf).reverse ++ cs = buf.reverse ++ c :: cs := by simp
      rw [hre]
      exact h

theorem poOK_joinLines :
    ∀ (K : List (List Char)), (∀ x ∈ K, poOK false x = true) →
      poOK false (joinLines K) = true := by
  intro K
  induction K with
  | nil => intro _; rfl
  | cons a K' ih =>
    intro h
    cases K' with
    | nil =>
      rw [joinLines_singleton]
      exact h a (List.mem_cons_self _ _)
    | cons b t =>
      rw [joinLines_cons_cons, poOK_append, Bool.and_eq_true_iff]
      constructor
      · rw [← poOK_eq_scan]
        exact h a (List.mem_cons_self _ _)
      · rw [poOK, if_neg (by decide), if_neg (by decide)]
        exact ih (fun x hx => h x (List.mem_cons_of_mem _ hx))

theorem poOK_stripLine {l : List Char} (h : poOK false l = true) :
    poOK false (stripLine l) = true := by
  obtain ⟨u, hu⟩ := stripLine_suffix l
  rw [← hu] at h
  exact poOK_suffix h

theorem poOK_f6 {l : List Char} (h : poOK false l = true) :
    poOK false (joinLines (processLines (splitOnChar '\n' l []))) = true := by
  refine poOK_joinLines _ ?_
  intro x hx
  obtain ⟨l0, hl0, rfl⟩ := mem_processLines hx
  exact poOK_stripLine (poOK_split_lines l [] (by simpa using h) l0 hl0)

theorem dwOK_cut :
    ∀ (u buf0 : List Char) {w : Char} (v : List Char), isPyWS w = true →
      dwOK buf0 (u ++ w :: v) = true →
      dwOK buf0 u = true ∧ dwOK [] v = true := by
  intro u
  induction u with
  | nil =>
    intro buf0 w v hw h
    rw [List.nil_append, dwOK, if_pos hw, Bool.and_eq_true_iff] at h
    exact ⟨h.1, h.2⟩
  | cons c u' ih =>
    intro buf0 w v hw h
    by_cases hc : isPyWS c = true
    · rw [List.cons_append, dwOK, if_pos hc, Bool.and_eq_true_iff] at h
      obtain ⟨hfd, h2⟩ := h
      obtain ⟨h3, h4⟩ := ih [] v hw h2
      refine ⟨?_, h4⟩
      rw [dwOK, if_pos hc, Bool.and_eq_true_iff]
      exact ⟨hfd, h3⟩
    · rw [List.cons_append, dwOK, if_neg hc] at h
      obtain ⟨h3, h4⟩ := ih (c :: buf0) v hw h
      refine ⟨?_, h4⟩
      rw [dwOK, if_neg hc]
      exact h3

theorem dwOK_split_lines :
    ∀ (l buf : List Char), dwOK [] (buf.reverse ++ l) = true →
      ∀ x ∈ splitOnChar '\n' l buf, dwOK [] x = true := by
  intro l
  induction l with
  | nil =>
    intro buf h x hx
    simp only [splitOnChar, List.mem_singleton] at hx
    subst hx
    simpa using h
  | cons c cs ih =>
    intro buf h x hx
    by_cases hc : c = '\n'
    · subst hc
      obtain ⟨h1, h2⟩ := dwOK_cut buf.reverse [] cs (by decide) h
      simp only [splitOnChar, if_pos, List.mem_cons] at hx
      rcases hx with rfl | hx2
      · exact h1
      · exact ih [] (by simpa using h2) x hx2
    · simp only [splitOnChar, hc, Bool.false_eq_true, if_neg,
        not_false_iff] at hx
      refine ih (c :: buf) ?_ x hx
      have hre : (c :: buf).reverse ++ cs = buf.reverse ++ c :: cs := by simp
      rw [hre]
      exact h

theorem dwOK_glue :
    ∀ (u buf : List Char) {w : Char} (v : List Char), isPyWS w = true →
      dwOK buf u = true → dwOK [] v = true →
      dwOK buf (u ++ w :: v) = true := by
  intro u
  induction u with
  | nil =>
    intro buf w v hw h1 h2
    rw [List.nil_append, dwOK, if_pos hw, Bool.and_eq_true_iff]
    exact ⟨h1, h2⟩
  | cons c u' ih =>
    intro buf w v hw h1 h2
    by_cases hc : isPyWS c = true
    · rw [dwOK, if_pos hc, Bool.and_eq_true_iff] at h1
      rw [List.cons_append, dwOK, if_pos hc, Bool.and_eq_true_iff]
      exact ⟨h1.1, ih [] v hw h1.2 h2⟩
    · rw [dwOK, if_neg hc] at h1
      rw [List.cons_append, dwOK, if_neg hc]
      exact ih (c :: buf) v hw h1 h2

theorem dwOK_joinLines :
    ∀ (K : List (List Char)), (∀ x ∈ K, dwOK [] x = true) →
      dwOK [] (joinLines K) = true := by
  intro K
  induction K with
  | nil => intro _; rfl
  | cons a K' ih =>
    intro h
    cases K' with
    | nil =>
      rw [joinLines_singleton]
      exact h a (List.mem_cons_self _ _)
    | cons b t =>
      rw [joinLines_cons_cons]
      exact dwOK_glue a [] _ (by decide) (h a (List.mem_cons_self _ _))
        (ih (fun x hx => h x (List.mem_cons_of_mem _ hx)))

theorem dwOK_stripLineFuel :
    ∀ (fuel : Nat) (l : List Char), dwOK [] l = true →
      dwOK [] (stripLineFuel fuel l) = true := by
  intro fuel
  induction fuel with
  | zero => intro l h; exact h
  | succ n ih =>
    intro l h
    cases hm : stripMarkerOnce l with
    | none => rw [stripLineFuel, hm]; exact h
    | some r =>
      rw [stripLineFuel, hm]
      refine ih r ?_
      rcases stripMarkerOnce_structure hm with rfl | ⟨x, w, hx, hw⟩
      · rfl
      · rw [hx] at h
        exact (dwOK_cut x [] r hw h).2

theorem dwOK_f6 {l : List Char} (h : dwOK [] l = true) :
    dwOK [] (joinLines (processLines (splitOnChar '\n' l []))) = true := by
  refine dwOK_joinLines _ ?_
  intro x hx
  obtain ⟨l0, hl0, rfl⟩ := mem_processLines hx
  exact dwOK_stripLineFuel l0.length l0
    (dwOK_split_lines l [] (by simpa using h) l0 hl0)

theorem mem_joinLines :
    ∀ (K : List (List Char)) (c : Char), c ∈ joinLines K →
      c = '\n' ∨ ∃ x, x ∈ K ∧ c ∈ x := by
  intro K
  induction K with
  | nil =>
    intro c h
    have he : joinLines ([] : List (List Char)) = [] := rfl
    rw [he] at h
    simp at h
  | cons a K' ih =>
    intro c h
    cases K' with
    | nil =>
      rw [joinLines_singleton] at h
      exact Or.inr ⟨a, List.mem_cons_self _ _, h⟩
    | cons b t =>
      rw [joinLines_cons_cons] at h
      rcases List.mem_append.mp h with h1 | h1
      · exact Or.inr ⟨a, List.mem_cons_self _ _, h1⟩
      · rcases List.mem_cons.mp h1 with rfl | h2
        · exact Or.inl rfl
        · rcases ih c h2 with h3 | ⟨x, hx, hcx⟩
          · exact Or.inl h3
          · exact Or.inr ⟨x, List.mem_cons_of_mem _ hx, hcx⟩

theorem noCurly_of_mem {l : List Char}
    (h : ∀ c ∈ l, ¬(c = '“') ∧ ¬(c = '”')) : noCurly l = true := by
  rw [noCurly, List.all_eq_true]
  intro c hc
  obtain ⟨h1, h2⟩ := h c hc
  simp [h1, h2]

theorem mem_of_noCurly {l : List Char} (h : noCurly l = true) :
    ∀ c ∈ l, ¬(c = '“') ∧ ¬(c = '”') := by
  rw [noCurly, List.all_eq_true] at h
  intro c hc
  have hcc := h c hc
  constructor
  · intro he; subst he; simp at hcc
  · intro he; subst he; simp at hcc

theorem noCurly_map_quoteMap (l : List Char) :
    noCurly (l.map quoteMap) = true := by
  refine noCurly_of_mem ?_
  intro c hc
  rw [List.mem_map] at hc
  obtain ⟨a, _, rfl⟩ := hc
  by_cases ha : a = '“' ∨ a = '”'
  · rw [quoteMap, if_pos ha]
    exact ⟨by decide, by decide⟩
  · rw [quoteMap, if_neg ha]
    push_neg at ha
    exact ⟨ha.1, ha.2⟩

theorem map_quoteMap_id : ∀ {l : List Char}, noCurly l = true →
    l.map quoteMap = l := by
  intro l
  induction l with
  | nil => intro _; rfl
  | cons c t ih =>
    intro h
    have hc := mem_of_noCurly h c (List.mem_cons_self _ _)
    have ht : noCurly t = true := by
      refine noCurly_of_mem ?_
      intro a ha
      exact mem_of_noCurly h a (List.mem_cons_of_mem _ ha)
    rw [List.map_cons, ih ht, quoteMap, if_neg (not_or.mpr ⟨hc.1, hc.2⟩)]

theorem noCurly_poAux {l : List Char} (h : noCurly l = true) :
    noCurly (poAux l [] 0) = true := by
  refine noCurly_of_mem ?_
  intro c hc
  rcases mem_poAux l [] 0 c hc with rfl | h2 | h2
  · exact ⟨by decide, by decide⟩
  · simp at h2
  · exact mem_of_noCurly h c h2

theorem noCurly_dwAux {l : List Char} (h : noCurly l = true) :
    noCurly (dwAux l []) = true := by
  refine noCurly_of_mem ?_
  intro c hc
  rcases mem_dwAux l [] c hc with h2 | h2
  · simp at h2
  · exact mem_of_noCurly h c h2

theorem noCurly_f6 {l : List Char} (h : noCurly l = true) :
    noCurly (joinLines (processLines (splitOnChar '\n' l []))) = true := by
  refine noCurly_of_mem ?_
  intro c hc
  rcases mem_joinLines _ c hc with rfl | ⟨x, hx, hcx⟩
  · exact ⟨by decide, by decide⟩
  · obtain ⟨l0, hl0, rfl⟩ := mem_processLines hx
    obtain ⟨u, hu⟩ := stripLine_suffix l0
    have hcl0 : c ∈ l0 := by
      rw [← hu]
      exact List.mem_append_right u hcx
    rcases mem_splitOnChar '\n' l [] l0 hl0 c hcl0 with h2 | h2
    · simp at h2
    · exact mem_of_noCurly h c h2

theorem f6_idem (l : List Char) :
    joinLines (processLines (splitOnChar '\n'
      (joinLines (processLines (splitOnChar '\n' l []))) [])) =
    joinLines (processLines (splitOnChar '\n' l [])) := by
  have hnlK : ∀ x ∈ splitOnChar '\n' l [], ∀ c ∈ x, ¬(c = '\n') :=
    splitOnChar_nl_free l [] (by intro c hc; simp at hc)
  have hfix : ∀ x ∈ processLines (splitOnChar '\n' l []), stripLine x = x := by
    intro x hx
    obtain ⟨l0, _, rfl⟩ := mem_processLines hx
    exact stripLine_idem l0
  have hnlK' : ∀ x ∈ processLines (splitOnChar '\n' l []),
      ∀ c ∈ x, ¬(c = '\n') := by
    intro x hx c hc
    obtain ⟨l0, hl0, rfl⟩ := mem_processLines hx
    obtain ⟨u, hu⟩ := stripLine_suffix l0
    exact hnlK l0 hl0 c (by rw [← hu]; exact List.mem_append_right u hc)
  by_cases hK : processLines (splitOnChar '\n' l []) = []
  · rw [hK]
    rfl
  · rw [splitOnChar_joinLines _ hK hnlK', processLines_fix _ hfix]

theorem quoteMap_nl (c : Char) : isNLChar (quoteMap c) = isNLChar c := by
  by_cases h : c = '“' ∨ c = '”'
  · rw [quoteMap, if_pos h]
    rcases h with rfl | rfl <;> decide
  · rw [quoteMap, if_neg h]

theorem quoteMap_sp (c : Char) : isSpaceChar (quoteMap c) = isSpaceChar c := by
  by_cases h : c = '“' ∨ c = '”'
  · rw [quoteMap, if_pos h]
    rcases h with rfl | rfl <;> decide
  · rw [quoteMap, if_neg h]

theorem preprocess_fixed_point {y : List Char}
    (h1 : chainOK isNLChar none y = true)
    (h2 : chainOK isSpaceChar none y = true)
    (h5 : noCurly y = true)
    (h3 : poOK false y = true)
    (h4 : dwOK [] y = true)
    (h6 : joinLines (processLines (splitOnChar '\n' y [])) = y) :
    preprocess_gazette_text (String.mk y) = String.mk y := by
  have e1 : collapseRuns isNLChar '\n' y false = y := by
    simpa using collapseRuns_of_chainOK isNLChar '\n'
      (fun c hc => by simpa [isNLChar] using hc) y none h1
  have e2 : collapseRuns isSpaceChar ' ' y false = y := by
    simpa using collapseRuns_of_chainOK isSpaceChar ' '
      (fun c hc => by simpa [isSpaceChar] using hc) y none h2
  have e5 : y.map quoteMap = y := map_quoteMap_id h5
  have e3 : poAux y [] 0 = y := by
    simpa using poAux_id y [] 0 rfl rfl (by omega) (by simpa using h3)
  have e4 : dwAux y [] = y := by
    simpa using dwAux_id y [] h4
  show String.mk (joinLines (processLines (splitOnChar '\n'
      (dwAux (poAux ((collapseRuns isSpaceChar ' '
        (collapseRuns isNLChar '\n' y false) false).map quoteMap) [] 0) [])
      []))) = String.mk y
  rw [e1, e2, e5, e3, e4, h6]

theorem preprocess_text_idem (s : String) :
    preprocess_gazette_text (preprocess_gazette_text s) =
      preprocess_gazette_text s := by
  obtain ⟨a1, ha1⟩ : ∃ t, collapseRuns isNLChar '\n' s.data false = t :=
    ⟨_, rfl⟩
  obtain ⟨a2, ha2⟩ : ∃ t, collapseRuns isSpaceChar ' ' a1 false = t :=
    ⟨_, rfl⟩
  obtain ⟨a5, ha5⟩ : ∃ t, a2.map quoteMap = t := ⟨_, rfl⟩
  obtain ⟨a3, ha3⟩ : ∃ t, poAux a5 [] 0 = t := ⟨_, rfl⟩
  obtain ⟨a4, ha4⟩ : ∃ t, dwAux a3 [] = t := ⟨_, rfl⟩
  obtain ⟨y, hy⟩ : ∃ t, joinLines (processLines (splitOnChar '\n' a4 [])) = t :=
    ⟨_, rfl⟩
  have h1a1 : chainOK isNLChar none a1 = true := by
    rw [← ha1]
    exact chainOK_collapseRuns _ _ _ _ _ (by intro _ a ha; cases ha)
  have h1a2 : chainOK isNLChar none a2 = true := by
    rw [← ha2]
    exact chainOK_collapseRuns_other (by decide) a1 false none
      (fun h => absurd h (by decide)) h1a1
  have h2a2 : chainOK isSpaceChar none a2 = true := by
    rw [← ha2]
    exact chainOK_collapseRuns _ _ _ _ _ (by intro _ a ha; cases ha)
  have h1a5 : chainOK isNLChar none a5 = true := by
    rw [← ha5]
    simpa using chainOK_map quoteMap_nl a2 none h1a2
  have h2a5 : chainOK isSpaceChar none a5 = true := by
    rw [← ha5]
    simpa using chainOK_map quoteMap_sp a2 none h2a2
  have h5a5 : noCurly a5 = true := by
    rw [← ha5]
    exact noCurly_map_quoteMap a2
  have h1a3 : chainOK isNLChar none a3 = true := by
    rw [← ha3]
    exact chainOK_poAux a5 [] 0 none rfl (Or.inl (by decide))
      (by simpa using h1a5)
  have h2a3 : chainOK isSpaceChar none a3 = true := by
    rw [← ha3]
    refine chainOK_poAux a5 [] 0 none rfl (Or.inr ⟨?_, ?_⟩)
      (by simpa using h2a5)
    · intro c' h'
      cases hsp : isSpaceChar c' with
      | false => rfl
      | true =>
        exfalso
        have hc : c' = ' ' := by simpa [isSpaceChar] using hsp
        subst hc
        exact absurd h' (by decide)
    · intro a ha
      cases ha
  have h5a3 : noCurly a3 = true := by
    rw [← ha3]
    exact noCurly_poAux h5a5
  have h3a3 : poOK false a3 = true := by
    rw [← ha3]
    exact poOK_poAux a5 [] 0 rfl rfl
  have hnl_ws : ∀ c, isNLChar c = true → isPyWS c = true := by
    intro c hc
    have hce : c = '\n' := by simpa [isNLChar] using hc
    subst hce
    decide
  have hsp_ws : ∀ c, isSpaceChar c = true → isPyWS c = true := by
    intro c hc
    have hce : c = ' ' := by simpa [isSpaceChar] using hc
    subst hce
    decide
  have h1a4 : chainOK isNLChar none a4 = true := by
    rw [← ha4]
    exact chainOK_dwAux hnl_ws a3 [] none (by intro c hc; simp at hc)
      (by simpa using h1a3)
  have h2a4 : chainOK isSpaceChar none a4 = true := by
    rw [← ha4]
    exact chainOK_dwAux hsp_ws a3 [] none (by intro c hc; simp at hc)
      (by simpa using h2a3)
  have h5a4 : noCurly a4 = true := by
    rw [← ha4]
    exact noCurly_dwAux h5a3
  have h3a4 : poOK false a4 = true := by
    rw [← ha4]
    exact poOK_dwAux a3 [] false (by intro c hc; simp at hc)
      (by simpa using h3a3)
  have h4a4 : dwOK [] a4 = true := by
    rw [← ha4]
    exact dwAux_est a3 [] (by intro c hc; simp at hc)
  have h1y : chainOK isNLChar none y = true := by
    rw [← hy]
    exact chainOK_nl_f6 h1a4
  have h2y : chainOK isSpaceChar none y = true := by
    rw [← hy]
    exact chainOK_f6 (by decide) h2a4
  have h5y : noCurly y = true := by
    rw [← hy]
    exact noCurly_f6 h5a4
  have h3y : poOK false y = true := by
    rw [← hy]
    exact poOK_f6 h3a4
  have h4y : dwOK [] y = true := by
    rw [← hy]
    exact dwOK_f6 h4a4
  have h6y : joinLines (processLines (splitOnChar '\n' y [])) = y := by
    rw [← hy]
    exact f6_idem a4
  have hrep : preprocess_gazette_text s = String.mk y := by
    rw [← hy, ← ha4, ← ha3, ← ha5, ← ha2, ← ha1]
    rfl
  rw [hrep]
  exact preprocess_fixed_point h1y h2y h5y h3y h4y h6y

/-- C4: `preprocess_gazette_txt_file` is idempotent — if a first run reads
`source` and succeeds, a second run that takes the written destination file as
its source succeeds as well and writes exactly the text the first run wrote:
the cleaned text is a fixed point of the normalize-then-filter transform. -/
theorem preprocess_gazette_txt_file_idempotent
    (fs : TextFS) (source destination dest2 text : String)
    (hsrc : fs.lookup source = some text)
    (hne : ¬(preprocess_gazette_text text = "")) :
    preprocess_gazette_txt_file
        ((preprocess_gazette_txt_file fs source destination).1)
        destination dest2 =
      ((dest2, preprocess_gazette_text text) ::
        (destination, preprocess_gazette_text text) :: fs, none) := by
  have h1 : preprocess_gazette_txt_file fs source destination =
      ((destination, preprocess_gazette_text text) :: fs, none) := by
    simp only [preprocess_gazette_txt_file, hsrc]
    rw [if_neg hne]
  rw [h1]
  have hfst : (((destination, preprocess_gazette_text text) :: fs,
      (none : Option String))).1 =
      (destination, preprocess_gazette_text text) :: fs := rfl
  rw [hfst]
  have hlook : ((destination, preprocess_gazette_text text) :: fs).lookup
      destination = some (preprocess_gazette_text text) := by
    simp [List.lookup]
  simp only [preprocess_gazette_txt_file, hlook]
  rw [preprocess_text_idem text, if_neg hne]

theorem preprocess_gazette_txt_file_idempotent_witness :
    ([("a.txt", "abc")] : TextFS).lookup "a.txt" = some "abc" ∧
      ¬(preprocess_gazette_text "abc" = "") ∧
      preprocess_gazette_txt_file
          ((preprocess_gazette_txt_file [("a.txt", "abc")] "a.txt"
            "b.txt").1) "b.txt" "c.txt" =
        (("c.txt", preprocess_gazette_text "abc") ::
          ("b.txt", preprocess_gazette_text "abc") :: [("a.txt", "abc")],
          none) :=
  ⟨by decide, by decide,
    preprocess_gazette_txt_file_idempotent _ _ _ _ _ (by decide) (by decide)⟩
